import Mathlib

/-!
Verification of the payee-mapping rule engine of `ynab-il-importer`.

This file gives a shallow embedding of the core of the repository —
`normalize.py`, `fingerprint.py`, `rules.py` and the candidate-example
helpers of `cli.py` — and proves the specification claims about it.

Character classes and case conversion model the ASCII fragment of the
Python `re`/`str` behaviour (the regexes in the source are used on
bank-statement text; the embedding fixes the `\w`/`\s`/`\d` classes and
`lower()`/`upper()` to their ASCII meaning).  Strings are Lean `String`s,
i.e. lists of unicode scalar values, matching Python strings as sequences
of code points.
-/

namespace YnabIL

/-! ### Character classes (ASCII model of the `re` classes used in `normalize.py`) -/

/-- Model of the `\s` class: space, tab, newline, carriage return,
vertical tab, form feed. -/
def isSpaceChar (c : Char) : Bool :=
  c.toNat = 32 || c.toNat = 9 || c.toNat = 10 || c.toNat = 13 || c.toNat = 11 || c.toNat = 12

/-- Model of the `\d` class: ASCII digits `0`-`9`. -/
def isDigitChar (c : Char) : Bool := 48 ≤ c.toNat && c.toNat ≤ 57

/-- Model of the `\w` class: letters, digits and underscore. -/
def isWordChar (c : Char) : Bool :=
  (97 ≤ c.toNat && c.toNat ≤ 122) || (65 ≤ c.toNat && c.toNat ≤ 90) || isDigitChar c
    || c.toNat = 95

/-- ASCII lower-casing of one character, modelling `str.lower()`. -/
def lowerChar (c : Char) : Char :=
  if 65 ≤ c.toNat && c.toNat ≤ 90 then Char.ofNat (c.toNat + 32) else c

/-- ASCII upper-casing of one character, modelling `str.upper()`. -/
def upperChar (c : Char) : Char :=
  if 97 ≤ c.toNat && c.toNat ≤ 122 then Char.ofNat (c.toNat - 32) else c

/-- Leading whitespace removal on a character list. -/
def dropLeadingSpaces (l : List Char) : List Char := l.dropWhile isSpaceChar

/-- Trailing whitespace removal on a character list (structural recursion). -/
def dropTrailingSpaces : List Char → List Char
  | [] => []
  | c :: cs =>
    match dropTrailingSpaces cs with
    | [] => if isSpaceChar c then [] else [c]
    | d :: ds => c :: d :: ds

/-- Model of `str.strip()` on character lists. -/
def stripChars (l : List Char) : List Char := dropLeadingSpaces (dropTrailingSpaces l)

/-- Model of `str.strip()` on strings. -/
def pstrip (s : String) : String := String.mk (stripChars s.data)

/-- Model of `str.lower()` on strings (ASCII). -/
def asciiLower (s : String) : String := String.mk (s.data.map lowerChar)

/-- Model of `str.upper()` on strings (ASCII). -/
def asciiUpper (s : String) : String := String.mk (s.data.map upperChar)

/-! ### `normalize.py`: `normalize_text` -/

/-- One character of the `_PUNCT_RE.sub(" ", text)` step: every character
that is neither a word character nor whitespace becomes a space. -/
def punctToSpaceChar (c : Char) : Char :=
  if isWordChar c || isSpaceChar c then c else ' '

/-- The `_PUNCT_RE.sub(" ", text)` step. -/
def punctToSpace (l : List Char) : List Char := l.map punctToSpaceChar

/-- Emit a finished digit run for the `_LONG_DIGIT_RUN_RE.sub(" ", text)`
step: a run of 4 or more digits is replaced by a single space, a shorter
run is kept. -/
def flushDigitRun (run : List Char) : List Char :=
  if 4 ≤ run.length then [' '] else run

/-- Worker for the `\d{4,}` substitution; `pending` is the digit run
currently being scanned. -/
def longDigitRunsAux : List Char → List Char → List Char
  | pending, [] => flushDigitRun pending
  | pending, c :: cs =>
    if isDigitChar c then longDigitRunsAux (pending ++ [c]) cs
    else flushDigitRun pending ++ c :: longDigitRunsAux [] cs

/-- The `_LONG_DIGIT_RUN_RE.sub(" ", text)` step: every run of 4 or more
consecutive digits becomes a single space. -/
def longDigitRunsToSpace (l : List Char) : List Char := longDigitRunsAux [] l

/-- Worker for the `_SPACE_RE.sub(" ", text)` step; the flag records
whether the previous input character was whitespace. -/
def collapseAux : Bool → List Char → List Char
  | _, [] => []
  | prevSpace, c :: cs =>
    if isSpaceChar c then
      if prevSpace then collapseAux true cs else ' ' :: collapseAux true cs
    else c :: collapseAux false cs

/-- The `_SPACE_RE.sub(" ", text)` step: every whitespace run becomes a
single space. -/
def collapseSpaces (l : List Char) : List Char := collapseAux false l

/-- The body of `normalize_text` on character lists: lower-case, replace
punctuation by spaces, replace long digit runs by a space, collapse
whitespace, strip. -/
def normalizeChars (l : List Char) : List Char :=
  stripChars (collapseSpaces (longDigitRunsToSpace (punctToSpace (l.map lowerChar))))

/-- `normalize_text` from `normalize.py` (on string input; the Python
function additionally maps `None` to `""` and stringifies other values). -/
def normalize_text (s : String) : String := String.mk (normalizeChars s.data)

/-! ### `fingerprint.py`: SHA-1 and `fingerprint_hash_v1` -/

/-- Truncation to 32 bits. -/
def u32 (n : Nat) : Nat := n % 4294967296

/-- 32-bit left rotation. -/
def rotl32 (k n : Nat) : Nat := u32 ((n <<< k) ||| (n >>> (32 - k)))

/-- UTF-8 encoding of one unicode scalar value. -/
def utf8Bytes (c : Char) : List Nat :=
  let n := c.toNat
  if n < 128 then [n]
  else if n < 2048 then [192 ||| (n >>> 6), 128 ||| (n &&& 63)]
  else if n < 65536 then
    [224 ||| (n >>> 12), 128 ||| ((n >>> 6) &&& 63), 128 ||| (n &&& 63)]
  else
    [240 ||| (n >>> 18), 128 ||| ((n >>> 12) &&& 63), 128 ||| ((n >>> 6) &&& 63),
      128 ||| (n &&& 63)]

/-- UTF-8 encoding of a string, as in `payload.encode("utf-8")`. -/
def strBytes (s : String) : List Nat := s.data.flatMap utf8Bytes

/-- Big-endian 8-byte encoding of a number (the SHA-1 length field). -/
def beBytes8 (n : Nat) : List Nat :=
  [(n >>> 56) &&& 255, (n >>> 48) &&& 255, (n >>> 40) &&& 255, (n >>> 32) &&& 255,
    (n >>> 24) &&& 255, (n >>> 16) &&& 255, (n >>> 8) &&& 255, n &&& 255]

/-- SHA-1 padding: append `0x80`, zero bytes up to 56 mod 64, then the
bit length as 8 big-endian bytes. -/
def sha1Pad (msg : List Nat) : List Nat :=
  let padZeros := (119 - msg.length % 64) % 64
  msg ++ 128 :: List.replicate padZeros 0 ++ beBytes8 (8 * msg.length)

/-- Big-endian combination of 4 bytes into one 32-bit word. -/
def bytesToWords : List Nat → List Nat
  | a :: b :: c :: d :: rest => ((((a <<< 8) ||| b) <<< 8 ||| c) <<< 8 ||| d) :: bytesToWords rest
  | _ => []

/-- Splitting a byte list into 64-byte blocks, with fuel to keep the
recursion structural. -/
def chunks64Fuel : Nat → List Nat → List (List Nat)
  | 0, _ => []
  | _, [] => []
  | fuel + 1, c :: cs => (c :: cs.take 63) :: chunks64Fuel fuel (cs.drop 63)

/-- Splitting a byte list into 64-byte blocks. -/
def chunks64 (l : List Nat) : List (List Nat) := chunks64Fuel l.length l

/-- SHA-1 message-schedule extension: extend the 16 block words to 80. -/
def extendWords : Nat → List Nat → List Nat
  | 0, ws => ws
  | n + 1, ws =>
    let k := ws.length
    extendWords n
      (ws ++ [rotl32 1 ((((ws.getD (k - 3) 0) ^^^ ws.getD (k - 8) 0) ^^^ ws.getD (k - 14) 0)
        ^^^ ws.getD (k - 16) 0)])

/-- One SHA-1 round: state `(a,b,c,d,e)`, round index `i`, word `w`. -/
def sha1Round (st : Nat × Nat × Nat × Nat × Nat) (iw : Nat × Nat) :
    Nat × Nat × Nat × Nat × Nat :=
  let (a, b, c, d, e) := st
  let (i, w) := iw
  let f :=
    if i < 20 then (b &&& c) ||| ((b ^^^ 4294967295) &&& d)
    else if i < 40 then (b ^^^ c) ^^^ d
    else if i < 60 then ((b &&& c) ||| (b &&& d)) ||| (c &&& d)
    else (b ^^^ c) ^^^ d
  let k :=
    if i < 20 then 1518500249
    else if i < 40 then 1859775393
    else if i < 60 then 2400959708
    else 3395469782
  let temp := u32 (rotl32 5 a + f + e + k + w)
  (temp, a, rotl32 30 b, c, d)

/-- SHA-1 compression of one 64-byte block into the running 5-word state. -/
def sha1Block (h : List Nat) (block : List Nat) : List Nat :=
  let ws := extendWords 64 (bytesToWords block)
  let init := (h.getD 0 0, h.getD 1 0, h.getD 2 0, h.getD 3 0, h.getD 4 0)
  let fin := (((List.range 80).zip ws).foldl sha1Round init)
  [u32 (h.getD 0 0 + fin.1), u32 (h.getD 1 0 + fin.2.1), u32 (h.getD 2 0 + fin.2.2.1),
    u32 (h.getD 3 0 + fin.2.2.2.1), u32 (h.getD 4 0 + fin.2.2.2.2)]

/-- SHA-1 of a byte list, as the five 32-bit state words. -/
def sha1Words (msg : List Nat) : List Nat :=
  (chunks64 (sha1Pad msg)).foldl sha1Block
    [1732584193, 4023233417, 2562383102, 271733878, 3285377520]

/-- Lower-case hex digit for a value below 16. -/
def hexDigitChar (n : Nat) : Char :=
  if n < 10 then Char.ofNat (48 + n) else Char.ofNat (87 + n)

/-- Eight hex characters of one 32-bit word, most significant first. -/
def wordHexChars (n : Nat) : List Char :=
  [hexDigitChar ((n >>> 28) &&& 15), hexDigitChar ((n >>> 24) &&& 15),
    hexDigitChar ((n >>> 20) &&& 15), hexDigitChar ((n >>> 16) &&& 15),
    hexDigitChar ((n >>> 12) &&& 15), hexDigitChar ((n >>> 8) &&& 15),
    hexDigitChar ((n >>> 4) &&& 15), hexDigitChar (n &&& 15)]

/-- `hashlib.sha1(...).hexdigest()` of a byte list: 40 hex characters. -/
def sha1Hex (msg : List Nat) : List Char := (sha1Words msg).flatMap wordHexChars

/-- `fingerprint_hash_v1` from `fingerprint.py`: lower-cased stripped kind
and normalized description, joined by a newline, SHA-1 hashed, and the
hex digest truncated to `length` characters (default 12). -/
def fingerprint_hash_v1 (txn_kind description_clean_norm : String) (length : Nat := 12) :
    String :=
  let kind := asciiLower (pstrip txn_kind)
  let description := normalize_text description_clean_norm
  let payload := kind ++ "\n" ++ description
  String.mk ((sha1Hex (strBytes payload)).take length)

/-! ### `rules.py`: data model -/

/-- The nine key-match columns of a rule (`RULE_KEY_COLUMNS`). -/
inductive KeyCol where
  | txn_kind
  | fingerprint_hash
  | fingerprint
  | description_clean_norm
  | account_name
  | source
  | direction
  | currency
  | amount_bucket
deriving DecidableEq

/-- The key columns in the order `rules.py` iterates over them. -/
def RULE_KEY_COLUMNS : List KeyCol :=
  [.txn_kind, .fingerprint_hash, .fingerprint, .description_clean_norm, .account_name,
    .source, .direction, .currency, .amount_bucket]

/-- `_blank_to_none` on a string cell: strip, and turn the empty result
into `none`. -/
def blank_to_none (s : String) : Option String :=
  let text := pstrip s
  if text = "" then none else some text

/-- `_blank_to_none` on an optional cell (`None` cells stay `None`). -/
def blankToNoneOpt : Option String → Option String
  | none => none
  | some s => blank_to_none s

/-- `_normalize_key_value` from `rules.py`: blank cells become `none`,
non-blank cells are canonicalized per column. -/
def normalize_key_value (col : KeyCol) (v : String) : Option String :=
  match blank_to_none v with
  | none => none
  | some text =>
    match col with
    | .txn_kind => some (asciiLower text)
    | .source => some (asciiLower text)
    | .direction => some (asciiLower text)
    | .fingerprint_hash => some (asciiLower text)
    | .currency => some (asciiUpper text)
    | .description_clean_norm => some (normalize_text text)
    | _ => some text

/-- A loaded rule row (the output of `normalize_payee_map_rules`): key
cells are `none` when blank, `rule_id` is stripped, `is_active` and
`priority` are parsed, and `_specificity` is cached. -/
structure Rule where
  rule_id : String
  is_active : Bool
  priority : Int
  txn_kind : Option String
  fingerprint_hash : Option String
  fingerprint : Option String
  description_clean_norm : Option String
  account_name : Option String
  source : Option String
  direction : Option String
  currency : Option String
  amount_bucket : Option String
  payee_canonical : Option String
  category_target : Option String
  notes : Option String
  specificity : Nat
deriving DecidableEq

/-- Key-column access on a rule row. -/
def ruleGet (r : Rule) : KeyCol → Option String
  | .txn_kind => r.txn_kind
  | .fingerprint_hash => r.fingerprint_hash
  | .fingerprint => r.fingerprint
  | .description_clean_norm => r.description_clean_norm
  | .account_name => r.account_name
  | .source => r.source
  | .direction => r.direction
  | .currency => r.currency
  | .amount_bucket => r.amount_bucket

/-- A prepared transaction, restricted to the nine comparison fields
(the view `prepare_transactions_for_rules` produces). -/
structure Txn where
  txn_kind : String
  fingerprint_hash : String
  fingerprint : String
  description_clean_norm : String
  account_name : String
  source : String
  direction : String
  currency : String
  amount_bucket : String
deriving DecidableEq

/-- Key-column access on a prepared transaction. -/
def txnGet (t : Txn) : KeyCol → String
  | .txn_kind => t.txn_kind
  | .fingerprint_hash => t.fingerprint_hash
  | .fingerprint => t.fingerprint
  | .description_clean_norm => t.description_clean_norm
  | .account_name => t.account_name
  | .source => t.source
  | .direction => t.direction
  | .currency => t.currency
  | .amount_bucket => t.amount_bucket

/-! ### `rules.py`: matching and specificity -/

/-- Worker for `_rule_matches`, iterating over the key columns with the
two suppression flags precomputed as in the source. -/
def ruleMatchesAux (r : Rule) (t : Txn) (hasFH hasFP : Bool) : List KeyCol → Bool
  | [] => true
  | c :: cs =>
    if (c = .fingerprint || c = .description_clean_norm) && hasFH then
      ruleMatchesAux r t hasFH hasFP cs
    else if c = .description_clean_norm && hasFP then
      ruleMatchesAux r t hasFH hasFP cs
    else
      match blankToNoneOpt (ruleGet r c) with
      | none => ruleMatchesAux r t hasFH hasFP cs
      | some ruleValue =>
        if normalize_key_value c (txnGet t c) = some ruleValue then
          ruleMatchesAux r t hasFH hasFP cs
        else false

/-- `_rule_matches` from `rules.py`. -/
def rule_matches (r : Rule) (t : Txn) : Bool :=
  ruleMatchesAux r t (blankToNoneOpt r.fingerprint_hash).isSome
    (blankToNoneOpt r.fingerprint).isSome RULE_KEY_COLUMNS

/-- Worker for `_compute_specificity`, mirroring the loop of the source. -/
def computeSpecificityAux (r : Rule) (hasFH hasFP : Bool) : List KeyCol → Nat
  | [] => 0
  | c :: cs =>
    if (c = .fingerprint || c = .description_clean_norm) && hasFH then
      computeSpecificityAux r hasFH hasFP cs
    else if c = .description_clean_norm && hasFP then
      computeSpecificityAux r hasFH hasFP cs
    else if (blankToNoneOpt (ruleGet r c)).isSome then
      1 + computeSpecificityAux r hasFH hasFP cs
    else computeSpecificityAux r hasFH hasFP cs

/-- `_compute_specificity` from `rules.py`. -/
def compute_specificity (r : Rule) : Nat :=
  computeSpecificityAux r (blankToNoneOpt r.fingerprint_hash).isSome
    (blankToNoneOpt r.fingerprint).isSome RULE_KEY_COLUMNS

/-! ### `rules.py`: loading and validation (`normalize_payee_map_rules`) -/

/-- A raw rule-table row: the 15 `PAYEE_MAP_COLUMNS` as string cells
(missing columns and missing cells read as `""`). -/
structure RawRule where
  rule_id : String
  is_active : String
  priority : String
  txn_kind : String
  fingerprint_hash : String
  fingerprint : String
  description_clean_norm : String
  account_name : String
  source : String
  direction : String
  currency : String
  amount_bucket : String
  payee_canonical : String
  category_target : String
  notes : String
deriving DecidableEq

/-- The `_TRUE_VALUES` vocabulary. -/
def TRUE_VALUES : List String := ["1", "true", "t", "yes", "y"]

/-- The `_FALSE_VALUES` vocabulary. -/
def FALSE_VALUES : List String := ["0", "false", "f", "no", "n"]

/-- `_normalize_is_active`: blank means `true`, else the value must be in
the boolean vocabulary (case-insensitive). -/
def parseIsActive (s : String) : Except String Bool :=
  match blank_to_none s with
  | none => .ok true
  | some text =>
    let lowered := asciiLower text
    if lowered ∈ TRUE_VALUES then .ok true
    else if lowered ∈ FALSE_VALUES then .ok false
    else .error ("Invalid is_active value: " ++ s)

/-- Digit sequence with optional single underscores between digits, the
tail of the `int()` literal grammar; accumulates the value. -/
def pyDigitsAux (acc : Nat) : List Char → Option Nat
  | [] => some acc
  | c :: cs =>
    if isDigitChar c then pyDigitsAux (10 * acc + (c.toNat - 48)) cs
    else if c.toNat = 95 then
      match cs with
      | d :: ds =>
        if isDigitChar d then pyDigitsAux (10 * acc + (d.toNat - 48)) ds else none
      | [] => none
    else none

/-- Unsigned part of the Python `int()` literal grammar: a digit followed
by digits with optional single underscores between them. -/
def pyDigits : List Char → Option Nat
  | [] => none
  | c :: cs => if isDigitChar c then pyDigitsAux (c.toNat - 48) cs else none

/-- Model of Python `int(text)` on stripped text: optional sign, then an
underscore-separated digit sequence. -/
def parsePyInt (s : String) : Option Int :=
  match s.data with
  | '+' :: rest => (pyDigits rest).map (fun n => (n : Int))
  | '-' :: rest => (pyDigits rest).map (fun n => -(n : Int))
  | l => (pyDigits l).map (fun n => (n : Int))

/-- `_normalize_priority`: blank means `0`, else `int(text)`; failure of
`int` is a validation error. -/
def parsePriority (s : String) : Except String Int :=
  match blank_to_none s with
  | none => .ok 0
  | some text =>
    match parsePyInt text with
    | some n => .ok n
    | none => .error ("Invalid priority value: " ++ s)

/-- Column-wise fallible map, modelling `Series.map` with a raising
function: the first bad cell aborts. -/
def mapExcept (f : α → Except String β) : List α → Except String (List β)
  | [] => .ok []
  | x :: xs =>
    match f x with
    | .error e => .error e
    | .ok y =>
      match mapExcept f xs with
      | .error e => .error e
      | .ok ys => .ok (y :: ys)

/-- Normalized rule row before the `_specificity` column is added. -/
def mkRuleBase (raw : RawRule) (act : Bool) (prio : Int) : Rule :=
  { rule_id := pstrip raw.rule_id
    is_active := act
    priority := prio
    txn_kind := normalize_key_value .txn_kind raw.txn_kind
    fingerprint_hash := normalize_key_value .fingerprint_hash raw.fingerprint_hash
    fingerprint := normalize_key_value .fingerprint raw.fingerprint
    description_clean_norm := normalize_key_value .description_clean_norm raw.description_clean_norm
    account_name := normalize_key_value .account_name raw.account_name
    source := normalize_key_value .source raw.source
    direction := normalize_key_value .direction raw.direction
    currency := normalize_key_value .currency raw.currency
    amount_bucket := normalize_key_value .amount_bucket raw.amount_bucket
    payee_canonical := blank_to_none raw.payee_canonical
    category_target := blank_to_none raw.category_target
    notes := blank_to_none raw.notes
    specificity := 0 }

/-- One fully normalized rule row with its cached `_specificity`. -/
def mkRule (raw : RawRule) (act : Bool) (prio : Int) : Rule :=
  let base := mkRuleBase raw act prio
  { base with specificity := compute_specificity base }

/-- `normalize_payee_map_rules` from `rules.py`: validate `rule_id`s,
parse `is_active` and `priority` column-wise, then normalize the key and
output cells and cache specificity.  Raised `ValueError`s are modelled as
`Except.error`. -/
def normalize_payee_map_rules (raws : List RawRule) : Except String (List Rule) :=
  let ids := raws.map (fun r => pstrip r.rule_id)
  if ids.contains "" then .error "payee_map.csv contains empty rule_id values"
  else if ids.Nodup then
    match mapExcept (fun r => parseIsActive r.is_active) raws with
    | .error e => .error e
    | .ok actives =>
      match mapExcept (fun r => parsePriority r.priority) raws with
      | .error e => .error e
      | .ok priorities =>
        .ok (List.zipWith (fun (rp : RawRule × Bool) p => mkRule rp.1 rp.2 p)
          (raws.zip actives) priorities)
  else .error "payee_map.csv contains duplicate rule_id values"

/-! ### `rules.py`: classification (`apply_payee_map_rules`) -/

/-- One classification-result row. -/
structure MatchResult where
  payee_canonical_suggested : String
  category_target_suggested : String
  match_rule_id : String
  match_specificity_score : Int
  match_status : String
  match_candidate_rule_ids : String
  match_rule_count : Nat
deriving DecidableEq

/-- The result row emitted when no rule matches. -/
def noneMatchResult : MatchResult :=
  { payee_canonical_suggested := ""
    category_target_suggested := ""
    match_rule_id := ""
    match_specificity_score := 0
    match_status := "none"
    match_candidate_rule_ids := ""
    match_rule_count := 0 }

/-- The ranking order of `apply_payee_map_rules`: the Python sort key
`(-priority, -_specificity, rule_id)` compared lexicographically, i.e.
priority descending, then specificity descending, then `rule_id`
ascending. -/
def rankLE (a b : Rule) : Prop :=
  b.priority < a.priority ∨
    (a.priority = b.priority ∧
      (b.specificity < a.specificity ∨
        (a.specificity = b.specificity ∧ a.rule_id ≤ b.rule_id)))

instance : DecidableRel rankLE := fun a b => by unfold rankLE; infer_instance

instance : IsTotal Rule rankLE :=
  ⟨fun a b => by
    unfold rankLE
    rcases lt_trichotomy a.priority b.priority with h | h | h
    · exact Or.inr (Or.inl h)
    · rcases lt_trichotomy a.specificity b.specificity with h' | h' | h'
      · exact Or.inr (Or.inr ⟨h.symm, Or.inl h'⟩)
      · rcases le_total a.rule_id b.rule_id with h'' | h''
        · exact Or.inl (Or.inr ⟨h, Or.inr ⟨h', h''⟩⟩)
        · exact Or.inr (Or.inr ⟨h.symm, Or.inr ⟨h'.symm, h''⟩⟩)
      · exact Or.inl (Or.inr ⟨h, Or.inl h'⟩)
    · exact Or.inl (Or.inl h)⟩

instance : IsTrans Rule rankLE :=
  ⟨fun a b c hab hbc => by
    unfold rankLE at *
    rcases hab with h1 | ⟨h1, h2⟩
    · rcases hbc with h3 | ⟨h3, _⟩
      · exact Or.inl (h3.trans h1)
      · exact Or.inl (h3 ▸ h1)
    · rcases hbc with h3 | ⟨h3, h4⟩
      · exact Or.inl (h1 ▸ h3)
      · refine Or.inr ⟨h1.trans h3, ?_⟩
        rcases h2 with h2 | ⟨h2, h2'⟩
        · rcases h4 with h4 | ⟨h4, _⟩
          · exact Or.inl (h4.trans h2)
          · exact Or.inl (h4 ▸ h2)
        · rcases h4 with h4 | ⟨h4, h4'⟩
          · exact Or.inl (h2 ▸ h4)
          · exact Or.inr ⟨h2.trans h4, h2'.trans h4'⟩⟩

/-- `";".join` of the `rule_id`s of a rule list. -/
def joinRuleIds (l : List Rule) : String := String.intercalate ";" (l.map (fun r => r.rule_id))

/-- The per-transaction body of `apply_payee_map_rules`: filter the
active rules to those matching the transaction, rank them, detect the
top-tier tie, and emit one result row. -/
def apply_rules_to_txn (rules : List Rule) (t : Txn) : MatchResult :=
  let activeRules := rules.filter (fun r => r.is_active)
  let matchedRules := activeRules.filter (fun r => rule_matches r t)
  match matchedRules with
  | [] => noneMatchResult
  | m :: ms =>
    match List.insertionSort rankLE (m :: ms) with
    | [] => noneMatchResult
    | top :: rest =>
      let ranked := top :: rest
      let tiePool := ranked.filter
        (fun r => r.priority = top.priority ∧ r.specificity = top.specificity)
      if 1 < tiePool.length then
        { payee_canonical_suggested := ""
          category_target_suggested := ""
          match_rule_id := joinRuleIds tiePool
          match_specificity_score := (top.specificity : Int)
          match_status := "ambiguous"
          match_candidate_rule_ids := joinRuleIds ranked
          match_rule_count := (m :: ms).length }
      else
        { payee_canonical_suggested := (blankToNoneOpt top.payee_canonical).getD ""
          category_target_suggested := (blankToNoneOpt top.category_target).getD ""
          match_rule_id := top.rule_id
          match_specificity_score := (top.specificity : Int)
          match_status := "unique"
          match_candidate_rule_ids := joinRuleIds ranked
          match_rule_count := (m :: ms).length }

/-- `apply_payee_map_rules` restricted to already-prepared transactions:
one result row per transaction, in order. -/
def apply_payee_map_rules (txns : List Txn) (rules : List Rule) : List MatchResult :=
  txns.map (apply_rules_to_txn rules)

/-- The full pipeline of `_run_build_payee_map` up to classification:
load and validate the rule table, then classify every transaction; a
validation error aborts before any matching runs. -/
def loadAndClassify (raws : List RawRule) (txns : List Txn) :
    Except String (List MatchResult) :=
  match normalize_payee_map_rules raws with
  | .error e => .error e
  | .ok rules => .ok (apply_payee_map_rules txns rules)

/-! ### `rules.py`: the Transaction Preparer's column selection -/

/-- A batch of raw transaction records, column-wise: an association list
from column name to the column's cells (stringified, missing cells read
as `""`), together with the row count. -/
structure Frame where
  cols : List (String × List String)
  nrows : Nat
deriving DecidableEq

/-- Column lookup (`col in df.columns` / `df[col]`). -/
def lookupCol (df : Frame) (name : String) : Option (List String) :=
  (df.cols.find? (fun p => p.1 = name)).map (fun p => p.2)

/-- `_pick_series` from `rules.py`: scan the candidate columns in order;
the first one that is present and has any non-blank stripped value is
returned (stripped) for the whole batch; otherwise a default-filled
column. -/
def pick_series (df : Frame) (columns : List String) (dflt : String) : List String :=
  match columns with
  | [] => List.replicate df.nrows dflt
  | c :: cs =>
    match lookupCol df c with
    | none => pick_series df cs dflt
    | some vals =>
      let series := vals.map pstrip
      if series.any (fun v => v ≠ "") then series else pick_series df cs dflt

/-- The description-source fallback chain of
`prepare_transactions_for_rules`. -/
def DESCRIPTION_SOURCE_COLUMNS : List String :=
  ["description_clean_norm", "description_clean", "merchant_raw", "description_raw",
    "raw_norm", "raw_text"]

/-- The `description_clean_norm` column computed by
`prepare_transactions_for_rules`: the picked description source column,
normalized per cell. -/
def prepareDescription (df : Frame) : List String :=
  (pick_series df DESCRIPTION_SOURCE_COLUMNS "").map normalize_text

/-- Value of an all-digit character list. -/
def digitsVal (ds : List Char) : Nat := ds.foldl (fun a c => 10 * a + (c.toNat - 48)) 0

/-- Exponent part of the numeric literal grammar: optional sign and a
nonempty digit sequence. -/
def parseExponent (l : List Char) : Option Int :=
  match l with
  | '+' :: rest => if rest ≠ [] ∧ rest.all isDigitChar then some (digitsVal rest) else none
  | '-' :: rest => if rest ≠ [] ∧ rest.all isDigitChar then some (-(digitsVal rest : Int)) else none
  | rest => if rest ≠ [] ∧ rest.all isDigitChar then some (digitsVal rest) else none

/-- Mantissa of the numeric literal grammar: digits with an optional
decimal point, at least one digit in total. -/
def parseMantissa (l : List Char) : Option ℚ :=
  let intPart := l.takeWhile isDigitChar
  let rest := l.dropWhile isDigitChar
  match rest with
  | [] => if intPart = [] then none else some (digitsVal intPart)
  | '.' :: frac =>
    if frac.all isDigitChar ∧ (intPart ≠ [] ∨ frac ≠ []) then
      some ((digitsVal intPart : ℚ) + (digitsVal frac : ℚ) / ((10 : ℚ) ^ frac.length))
    else none
  | _ => none

/-- A non-`NaN` value produced by the pandas numeric parser: a finite
number or a signed infinity. -/
inductive PdNumber where
  | finite (q : ℚ)
  | posInf
  | negInf
deriving DecidableEq

/-- Model of `pd.to_numeric(..., errors="coerce")` on one string cell:
after an optional sign, the infinity literals `inf`/`infinity`
(case-insensitive) parse to a signed infinity, and otherwise the decimal
literal grammar (digits with optional decimal point and exponent)
applies.  `NaN` results — failed coercion and the `nan` literal — are
modelled as `none`; the `fillna(0.0)` step downstream turns them into
`0`. -/
def parseNumeric (s : String) : Option PdNumber :=
  let l := stripChars s.data
  let (neg, l1) :=
    match l with
    | '+' :: rest => (false, rest)
    | '-' :: rest => (true, rest)
    | rest => (false, rest)
  let lowered := l1.map lowerChar
  if lowered = "inf".data ∨ lowered = "infinity".data then
    some (if neg then PdNumber.negInf else PdNumber.posInf)
  else if lowered = "nan".data then none
  else
    let mantChars := l1.takeWhile (fun c => c.toNat ≠ 101 && c.toNat ≠ 69)
    let expChars := l1.dropWhile (fun c => c.toNat ≠ 101 && c.toNat ≠ 69)
    match parseMantissa mantChars with
    | none => none
    | some m =>
      let signedM := if neg then -m else m
      match expChars with
      | [] => some (PdNumber.finite signedM)
      | _ :: expTail =>
        match parseExponent expTail with
        | none => none
        | some e => some (PdNumber.finite (signedM * (10 : ℚ) ^ e))

/-- `_compute_direction` from `rules.py`: coerce to a number (`NaN` and
parse failures become `0.0` via `fillna`), then sign to
`inflow`/`outflow`/`zero`; a positive infinity is positive and a
negative infinity negative. -/
def compute_direction (amount_ils : String) : String :=
  match (parseNumeric amount_ils).getD (PdNumber.finite 0) with
  | .posInf => "inflow"
  | .negInf => "outflow"
  | .finite q => if 0 < q then "inflow" else if q < 0 then "outflow" else "zero"

/-- The raw `direction` column of the batch: the existing column,
stripped and lower-cased, or all-blank when the column is absent. -/
def prepareDirBase (df : Frame) : List String :=
  match lookupCol df "direction" with
  | some vals => vals.map (fun v => asciiLower (pstrip v))
  | none => List.replicate df.nrows ""

/-- The `direction` column after the `amount_ils` fallback: where the
existing direction is blank, derive it from the signed amount. -/
def prepareDirWithAmount (df : Frame) : List String :=
  match lookupCol df "amount_ils" with
  | some amounts =>
    ((prepareDirBase df).zip amounts).map
      (fun p => if p.1 = "" then compute_direction p.2 else p.1)
  | none => prepareDirBase df

/-- The `direction` column computed by `prepare_transactions_for_rules`:
an existing non-blank direction (lower-cased) wins; otherwise the
direction derived from `amount_ils`; a still-blank direction becomes
`"zero"`. -/
def prepareDirection (df : Frame) : List String :=
  (prepareDirWithAmount df).map (fun d => if d = "" then "zero" else d)

/-! ### `cli.py`: candidate-group example selection -/

/-- `_bounded_text` from `cli.py`: `None`/`NaN` becomes `""`, other
values are stripped and truncated to `max_len` characters. -/
def bounded_text (v : Option String) (maxLen : Nat := 100) : String :=
  match v with
  | none => ""
  | some s => String.mk ((stripChars s.data).take maxLen)

/-- `_choose_example_text` from `cli.py`: prefer the merchant text over
the normalized description, choosing the longer one when both exist and
differ case-insensitively. -/
def choose_example_text (merchant_raw description_clean_norm : Option String)
    (maxLen : Nat := 100) : String :=
  let merchant := bounded_text merchant_raw maxLen
  let descriptionNorm := bounded_text description_clean_norm maxLen
  if merchant ≠ "" ∧ descriptionNorm ≠ "" then
    if asciiLower merchant = asciiLower descriptionNorm then merchant
    else if descriptionNorm.length ≤ merchant.length then merchant
    else descriptionNorm
  else if merchant ≠ "" then merchant
  else descriptionNorm

/-- Worker for `_collect_examples`: scan the cleaned values, keeping the
first distinct non-empty ones and stopping at `limit`. -/
def collectAux (limit : Nat) (acc : List String) : List String → List String
  | [] => acc
  | v :: vs =>
    if v = "" ∨ acc.contains v then collectAux limit acc vs
    else
      let acc' := acc ++ [v]
      if acc'.length = limit then acc' else collectAux limit acc' vs

/-- `_collect_examples` from `cli.py`: strip the series, take the first
`limit` distinct non-empty values in order, and pad with `""`. -/
def collect_examples (series : List String) (limit : Nat := 2) : List String :=
  let found := collectAux limit [] (series.map pstrip)
  found ++ List.replicate (limit - found.length) ""

/-- The `candidate_example` column of `_run_build_payee_map`: one
`_choose_example_text` value per row from the row's `merchant_raw` and
`description_clean_norm` cells. -/
def candidateExamples (rows : List (Option String × Option String)) : List String :=
  rows.map (fun p => choose_example_text p.1 p.2)

/-- `example_1` of a candidate group (rows given in original order). -/
def example_1 (rows : List (Option String × Option String)) : String :=
  (collect_examples (candidateExamples rows) 2).getD 0 ""

/-- `example_2` of a candidate group (rows given in original order). -/
def example_2 (rows : List (Option String × Option String)) : String :=
  (collect_examples (candidateExamples rows) 2).getD 1 ""

/-! ### Specification-side predicates

The following definitions transcribe the specification's wording (not the
source) and are compared with the embedded source functions in the
theorems below. -/

/-- Spec wording: the rule's value for this key field is a wildcard
(blank). -/
def keyFieldWildcard (r : Rule) (c : KeyCol) : Prop :=
  blankToNoneOpt (ruleGet r c) = none

/-- Spec wording: the rule's normalized value equals the transaction's
normalized value for this key field. -/
def keyFieldAgrees (r : Rule) (t : Txn) (c : KeyCol) : Prop :=
  normalize_key_value c (txnGet t c) = blankToNoneOpt (ruleGet r c)

/-- Spec wording of the suppression rule: with a non-wildcard
`fingerprint_hash` the `fingerprint` and `description_clean_norm` fields
are treated as automatically satisfied, and with a non-wildcard
`fingerprint` the `description_clean_norm` field is. -/
def keyFieldSuppressed (r : Rule) (c : KeyCol) : Prop :=
  ((c = .fingerprint ∨ c = .description_clean_norm) ∧
      blankToNoneOpt r.fingerprint_hash ≠ none) ∨
    (c = .description_clean_norm ∧ blankToNoneOpt r.fingerprint ≠ none)

/-- Spec wording of rule matching: for each of the 9 key fields, either
the field is suppressed, or the rule's value is a wildcard, or the
normalized values agree. -/
def specRuleMatches (r : Rule) (t : Txn) : Prop :=
  ∀ c ∈ RULE_KEY_COLUMNS, keyFieldSuppressed r c ∨ keyFieldWildcard r c ∨ keyFieldAgrees r t c

/-- Spec wording of specificity: the count of non-wildcard key fields
that are actually evaluated under the suppression rule. -/
instance (r : Rule) (c : KeyCol) : Decidable (keyFieldSuppressed r c) := by
  unfold keyFieldSuppressed; infer_instance

instance (r : Rule) (c : KeyCol) : Decidable (keyFieldWildcard r c) := by
  unfold keyFieldWildcard; infer_instance

def specEvaluatedCount (r : Rule) : Nat :=
  (RULE_KEY_COLUMNS.filter
    (fun c => decide (¬ keyFieldSuppressed r c ∧ ¬ keyFieldWildcard r c))).length

/-- A wholly-blank loaded rule row, used to build concrete examples. -/
def blankRule : Rule :=
  { rule_id := "", is_active := true, priority := 0, txn_kind := none,
    fingerprint_hash := none, fingerprint := none, description_clean_norm := none,
    account_name := none, source := none, direction := none, currency := none,
    amount_bucket := none, payee_canonical := none, category_target := none,
    notes := none, specificity := 0 }

/-- A rule whose `fingerprint_hash` key is set and whose (suppressed)
`fingerprint` and `description_clean_norm` cells are also filled in. -/
def hashOnlyRule : Rule :=
  { blankRule with
    rule_id := "R1"
    fingerprint_hash := some "abc123"
    fingerprint := some "coffee shop"
    description_clean_norm := some "coffee shop 42" }

/-- Spec wording: a rule-table boolean cell is blank or in the recognized
vocabulary `1/0/true/false/t/f/yes/no/y/n`, case-insensitively. -/
def validBoolCell (s : String) : Prop :=
  pstrip s = "" ∨
    asciiLower (pstrip s) ∈ ["1", "0", "true", "false", "t", "f", "yes", "no", "y", "n"]

/-- Spec wording: a rule-table priority cell is blank or
integer-parseable. -/
def validPriorityCell (s : String) : Prop :=
  pstrip s = "" ∨ (parsePyInt (pstrip s)).isSome

instance (s : String) : Decidable (validBoolCell s) := by
  unfold validBoolCell; infer_instance

instance (s : String) : Decidable (validPriorityCell s) := by
  unfold validPriorityCell; infer_instance

/-- Spec wording of a well-formed rule table: no empty `rule_id`, no
duplicated `rule_id`, recognized `is_active` values, parseable
priorities. -/
def tableWellFormed (raws : List RawRule) : Prop :=
  (∀ raw ∈ raws, pstrip raw.rule_id ≠ "") ∧
    (raws.map (fun raw => pstrip raw.rule_id)).Nodup ∧
    (∀ raw ∈ raws, validBoolCell raw.is_active) ∧
    (∀ raw ∈ raws, validPriorityCell raw.priority)

instance (raws : List RawRule) : Decidable (tableWellFormed raws) := by
  unfold tableWellFormed; infer_instance

/-- The `(priority, specificity)` pair of a rule. -/
def psKey (r : Rule) : Int × Nat := (r.priority, r.specificity)

/-- Comparison of `(priority, specificity)` pairs: lexicographic, as in
the ranking. -/
def psLE (a b : Int × Nat) : Prop := a.1 < b.1 ∨ (a.1 = b.1 ∧ a.2 ≤ b.2)

/-- Spec wording: the matched rules whose `(priority, specificity)` pair
is maximal among the matched rules (the top tier). -/
instance (a b : Int × Nat) : Decidable (psLE a b) := by unfold psLE; infer_instance

def topTier (matched : List Rule) : List Rule :=
  matched.filter (fun r => decide (∀ r' ∈ matched, psLE (psKey r') (psKey r)))

/-- An active example rule keyed only on `source = bank`. -/
def tiedRuleA : Rule :=
  { blankRule with
    rule_id := "A"
    source := some "bank"
    specificity := 1 }

/-- A second active example rule with the same key and tier. -/
def tiedRuleB : Rule :=
  { blankRule with
    rule_id := "B"
    source := some "bank"
    specificity := 1 }

/-- A prepared example transaction from source `bank`. -/
def bankTxn : Txn :=
  { txn_kind := "", fingerprint_hash := "", fingerprint := "", description_clean_norm := "",
    account_name := "", source := "bank", direction := "", currency := "",
    amount_bucket := "" }

/-- An example batch whose `description_clean` column is selected for the
whole batch while `merchant_raw` still has values. -/
def exampleFrame : Frame :=
  ⟨[("description_clean", ["hello", " "]), ("merchant_raw", ["", "shop"])], 2⟩

/-- Spec wording (Transaction Preparer): the column is absent from the
batch or contains no non-blank value. -/
def colBlankOrAbsent (df : Frame) (name : String) : Prop :=
  match lookupCol df name with
  | none => True
  | some vals => ∀ v ∈ vals, pstrip v = ""

instance (df : Frame) (name : String) : Decidable (colBlankOrAbsent df name) := by
  unfold colBlankOrAbsent
  split
  · exact isTrue trivial
  · infer_instance

/-- The row's `direction` cell is blank (or the column absent). -/
def dirBlankAt (df : Frame) (i : Nat) : Prop :=
  match lookupCol df "direction" with
  | none => True
  | some vals =>
    match vals[i]? with
    | none => True
    | some v => pstrip v = ""

instance (df : Frame) (i : Nat) : Decidable (dirBlankAt df i) := by
  unfold dirBlankAt
  split
  · exact isTrue trivial
  · split
    · exact isTrue trivial
    · infer_instance

/-- The row's `amount_ils` cell is missing or not parseable as a number
(or the column absent). -/
def amountUnparseableAt (df : Frame) (i : Nat) : Prop :=
  match lookupCol df "amount_ils" with
  | none => True
  | some vals =>
    match vals[i]? with
    | none => True
    | some v => parseNumeric v = none

instance (df : Frame) (i : Nat) : Decidable (amountUnparseableAt df i) := by
  unfold amountUnparseableAt
  split
  · exact isTrue trivial
  · split
    · exact isTrue trivial
    · infer_instance

/-- Column lengths agree with the row count. -/
def frameWF (df : Frame) : Prop := ∀ p ∈ df.cols, (p.2 : List String).length = df.nrows

instance (df : Frame) : Decidable (frameWF df) := by
  unfold frameWF; infer_instance

/-- Spec wording (Candidate Aggregator): all distinct non-empty values of
a (stripped) series, in order of first occurrence. -/
def distinctNonEmptyAux (seen : List String) : List String → List String
  | [] => []
  | v :: vs =>
    if v = "" ∨ seen.contains v then distinctNonEmptyAux seen vs
    else v :: distinctNonEmptyAux (seen ++ [v]) vs

/-- Spec wording: the first at most `n` distinct non-empty example texts
in original row order, padded with empty strings. -/
def specExampleSelection (l : List String) (n : Nat) : List String :=
  let picked := (distinctNonEmptyAux [] (l.map pstrip)).take n
  picked ++ List.replicate (n - picked.length) ""

/-! ### Proof infrastructure: canonical-form predicates for `normalize_text` -/

/-- A character that can occur in normalizer output: a case-stable word
character or the plain space. -/
def goodChar (c : Char) : Bool := (isWordChar c && (lowerChar c == c)) || (c == ' ')

/-- No two adjacent whitespace characters. -/
def NoTwoSpaces (l : List Char) : Prop :=
  l.Chain' (fun a b => isSpaceChar a = false ∨ isSpaceChar b = false)

/-- The first character, if any, is not whitespace. -/
def HeadNotSpace (l : List Char) : Prop := ∀ c ∈ l.head?, isSpaceChar c = false

/-- The last character, if any, is not whitespace. -/
def LastNotSpace : List Char → Prop
  | [] => True
  | [c] => isSpaceChar c = false
  | _ :: c :: cs => LastNotSpace (c :: cs)

/-- Digit-run check: scanning with `k` digits already seen, every maximal
digit run (including the initial `k`) has length at most 3. -/
def runsOKAux (k : Nat) : List Char → Bool
  | [] => k ≤ 3
  | c :: cs => if isDigitChar c then runsOKAux (k + 1) cs else k ≤ 3 && runsOKAux 0 cs

/-- Every maximal digit run has length at most 3. -/
def runsOK (l : List Char) : Bool := runsOKAux 0 l

/-! ## Theorems -/

theorem toNat_ofNat_valid (n : Nat) (h : n < 55296) : (Char.ofNat n).toNat = n := by
  have hv : Nat.isValidChar n := Or.inl h
  rw [Char.ofNat, dif_pos hv]
  simp [Char.ofNatAux, Char.toNat, UInt32.ofNat', UInt32.toNat, BitVec.toNat_ofNatLt]

theorem lowerChar_toNat (c : Char) :
    (lowerChar c).toNat = if 65 ≤ c.toNat ∧ c.toNat ≤ 90 then c.toNat + 32 else c.toNat := by
  unfold lowerChar
  by_cases h : 65 ≤ c.toNat ∧ c.toNat ≤ 90
  · rw [if_pos (by simp [h.1, h.2]), if_pos h, toNat_ofNat_valid _ (by omega)]
  · rw [if_neg (by simpa using h), if_neg h]

theorem char_eq_of_toNat_eq {c d : Char} (h : c.toNat = d.toNat) : c = d := by
  apply Char.ext
  exact UInt32.ext h

theorem isSpaceChar_iff (c : Char) :
    isSpaceChar c = true ↔
      c.toNat = 32 ∨ c.toNat = 9 ∨ c.toNat = 10 ∨ c.toNat = 13 ∨ c.toNat = 11 ∨
        c.toNat = 12 := by
  simp [isSpaceChar]
  omega

theorem isDigitChar_iff (c : Char) :
    isDigitChar c = true ↔ 48 ≤ c.toNat ∧ c.toNat ≤ 57 := by
  simp [isDigitChar]

theorem isWordChar_iff (c : Char) :
    isWordChar c = true ↔
      (97 ≤ c.toNat ∧ c.toNat ≤ 122) ∨ (65 ≤ c.toNat ∧ c.toNat ≤ 90) ∨
        (48 ≤ c.toNat ∧ c.toNat ≤ 57) ∨ c.toNat = 95 := by
  simp [isWordChar, isDigitChar]
  omega

theorem lowerChar_idem (c : Char) : lowerChar (lowerChar c) = lowerChar c := by
  apply char_eq_of_toNat_eq
  by_cases h : 65 ≤ c.toNat ∧ c.toNat ≤ 90
  · have h2 : (lowerChar c).toNat = c.toNat + 32 := by rw [lowerChar_toNat, if_pos h]
    rw [lowerChar_toNat (lowerChar c), h2, if_neg (by omega)]
  · have h2 : lowerChar c = c := by unfold lowerChar; rw [if_neg (by simpa using h)]
    rw [h2, h2]

theorem isWordChar_lowerChar (c : Char) (h : isWordChar c = true) :
    isWordChar (lowerChar c) = true := by
  rw [isWordChar_iff] at h ⊢
  rw [lowerChar_toNat]
  by_cases h' : 65 ≤ c.toNat ∧ c.toNat ≤ 90
  · rw [if_pos h']; omega
  · rw [if_neg h']; omega

theorem isSpaceChar_lowerChar (c : Char) : isSpaceChar (lowerChar c) = isSpaceChar c := by
  by_cases h : 65 ≤ c.toNat ∧ c.toNat ≤ 90
  · have h1 : isSpaceChar (lowerChar c) = false := by
      rw [Bool.eq_false_iff]
      intro hs
      rw [isSpaceChar_iff, lowerChar_toNat, if_pos h] at hs
      omega
    have h2 : isSpaceChar c = false := by
      rw [Bool.eq_false_iff]
      intro hs
      rw [isSpaceChar_iff] at hs
      omega
    rw [h1, h2]
  · unfold lowerChar
    rw [if_neg (by simpa using h)]

theorem goodChar_space (c : Char) (hg : goodChar c = true) (hs : isSpaceChar c = true) :
    c = ' ' := by
  unfold goodChar at hg
  rcases (Bool.or_eq_true _ _).mp hg with h | h
  · exfalso
    have hw : isWordChar c = true := ((Bool.and_eq_true _ _).mp h).1
    rw [isWordChar_iff] at hw
    rw [isSpaceChar_iff] at hs
    omega
  · exact eq_of_beq h

theorem goodChar_lower_fixed (c : Char) (hg : goodChar c = true) : lowerChar c = c := by
  unfold goodChar at hg
  rcases (Bool.or_eq_true _ _).mp hg with h | h
  · exact eq_of_beq ((Bool.and_eq_true _ _).mp h).2
  · rw [eq_of_beq h]; decide

theorem goodChar_word_or_space (c : Char) (hg : goodChar c = true) :
    (isWordChar c || isSpaceChar c) = true := by
  unfold goodChar at hg
  rcases (Bool.or_eq_true _ _).mp hg with h | h
  · simp [((Bool.and_eq_true _ _).mp h).1]
  · rw [eq_of_beq h]; decide

theorem map_lowerChar_fix (l : List Char) (h : ∀ c ∈ l, goodChar c = true) :
    l.map lowerChar = l := by
  induction l with
  | nil => rfl
  | cons c cs ih =>
    simp only [List.map_cons]
    rw [goodChar_lower_fixed c (h c (by simp)), ih (fun x hx => h x (by simp [hx]))]

theorem punctToSpace_fix (l : List Char) (h : ∀ c ∈ l, goodChar c = true) :
    punctToSpace l = l := by
  unfold punctToSpace
  induction l with
  | nil => rfl
  | cons c cs ih =>
    simp only [List.map_cons]
    rw [show punctToSpaceChar c = c from by
        unfold punctToSpaceChar
        rw [if_pos (goodChar_word_or_space c (h c (by simp)))],
      ih (fun x hx => h x (by simp [hx]))]

theorem runsOKAux_nil (k : Nat) : runsOKAux k [] = decide (k ≤ 3) := rfl

theorem runsOKAux_cons (k : Nat) (c : Char) (cs : List Char) :
    runsOKAux k (c :: cs) =
      if isDigitChar c = true then runsOKAux (k + 1) cs
      else decide (k ≤ 3) && runsOKAux 0 cs := rfl

theorem longDigitRunsAux_nil (p : List Char) : longDigitRunsAux p [] = flushDigitRun p := rfl

theorem longDigitRunsAux_cons (p : List Char) (c : Char) (cs : List Char) :
    longDigitRunsAux p (c :: cs) =
      if isDigitChar c = true then longDigitRunsAux (p ++ [c]) cs
      else flushDigitRun p ++ c :: longDigitRunsAux [] cs := rfl

theorem dropTrailingSpaces_nil : dropTrailingSpaces [] = [] := rfl

theorem collapseAux_nil (prev : Bool) : collapseAux prev [] = [] := rfl

theorem collapseAux_cons (prev : Bool) (c : Char) (cs : List Char) :
    collapseAux prev (c :: cs) =
      if isSpaceChar c = true then
        (if prev then collapseAux true cs else ' ' :: collapseAux true cs)
      else c :: collapseAux false cs := rfl

theorem runsOKAux_digits (p : List Char) (hp : p.all isDigitChar = true) (k : Nat) :
    runsOKAux k p = decide (k + p.length ≤ 3) := by
  induction p generalizing k with
  | nil => simp [runsOKAux]
  | cons c cs ih =>
    rw [List.all_cons, Bool.and_eq_true] at hp
    rw [runsOKAux_cons, if_pos hp.1, ih hp.2]
    exact decide_eq_decide.mpr (by simp; omega)

theorem longDigitRunsAux_fix (l : List Char) :
    ∀ p, p.all isDigitChar = true → runsOKAux p.length l = true →
      longDigitRunsAux p l = p ++ l := by
  induction l with
  | nil =>
    intro p hp h
    rw [longDigitRunsAux_nil, flushDigitRun, if_neg (by
      rw [runsOKAux_nil] at h
      simp at h
      omega)]
    simp
  | cons c cs ih =>
    intro p hp h
    by_cases hc : isDigitChar c = true
    · rw [longDigitRunsAux_cons, if_pos hc]
      rw [ih (p ++ [c]) (by simp [List.all_append, hp, hc])
        (by rw [runsOKAux_cons, if_pos hc] at h; simpa using h)]
      simp
    · rw [runsOKAux_cons, if_neg hc, Bool.and_eq_true] at h
      rw [longDigitRunsAux_cons, if_neg hc]
      rw [ih [] rfl h.2]
      rw [flushDigitRun, if_neg (by
        have := h.1
        simp at this
        omega)]
      simp

theorem longDigitRunsToSpace_fix (l : List Char) (h : runsOK l = true) :
    longDigitRunsToSpace l = l :=
  longDigitRunsAux_fix l [] rfl h

theorem collapseAux_fix (l : List Char) :
    ∀ prev, NoTwoSpaces l → (∀ c ∈ l, isSpaceChar c = true → c = ' ') →
      (prev = true → HeadNotSpace l) → collapseAux prev l = l := by
  induction l with
  | nil => intro prev _ _ _; cases prev <;> rfl
  | cons c cs ih =>
    intro prev h1 h2 h3
    rw [NoTwoSpaces, List.chain'_cons'] at h1
    by_cases hc : isSpaceChar c = true
    · have hprev : prev = false := by
        cases prev
        · rfl
        · have := h3 rfl c (by simp [HeadNotSpace])
          rw [hc] at this
          cases this
      subst hprev
      rw [collapseAux_cons, if_pos hc]
      simp only [Bool.false_eq_true, if_false]
      rw [h2 c (by simp) hc]
      rw [ih true h1.2 (fun x hx hs => h2 x (by simp [hx]) hs)
        (by
          intro _
          intro d hd
          have := h1.1 d hd
          rcases this with h | h
          · rw [hc] at h; cases h
          · exact h)]
    · rw [collapseAux_cons, if_neg hc]
      rw [ih false h1.2 (fun x hx hs => h2 x (by simp [hx]) hs) (by intro h; cases h)]

theorem dropLeadingSpaces_fix (l : List Char) (h : HeadNotSpace l) :
    dropLeadingSpaces l = l := by
  cases l with
  | nil => rfl
  | cons c cs =>
    unfold dropLeadingSpaces
    rw [List.dropWhile_cons, if_neg (by rw [h c (by simp [HeadNotSpace])]; simp)]

theorem dropTrailingSpaces_fix (l : List Char) (h : LastNotSpace l) :
    dropTrailingSpaces l = l := by
  induction l with
  | nil => rfl
  | cons c cs ih =>
    cases cs with
    | nil =>
      unfold dropTrailingSpaces
      rw [show LastNotSpace [c] = (isSpaceChar c = false) from rfl] at h
      simp [h, dropTrailingSpaces_nil]
    | cons d ds =>
      have hih := ih h
      unfold dropTrailingSpaces
      rw [hih]

theorem stripChars_fix (l : List Char) (hh : HeadNotSpace l) (hl : LastNotSpace l) :
    stripChars l = l := by
  unfold stripChars
  rw [dropTrailingSpaces_fix l hl, dropLeadingSpaces_fix l hh]

theorem mem_dropTrailingSpaces {c : Char} :
    ∀ {l : List Char}, c ∈ dropTrailingSpaces l → c ∈ l := by
  intro l
  induction l with
  | nil => intro h; exact h
  | cons d ds ih =>
    intro h
    unfold dropTrailingSpaces at h
    rcases hd : dropTrailingSpaces ds with _ | ⟨e, es⟩
    · rw [hd] at h
      by_cases hs : isSpaceChar d = true
      · rw [if_pos hs] at h; cases h
      · rw [if_neg hs] at h
        simp at h
        simp [h]
    · rw [hd] at h
      rcases List.mem_cons.mp h with rfl | h'
      · simp
      · exact List.mem_cons_of_mem d (ih (hd ▸ h'))

theorem head?_dropTrailingSpaces (l : List Char) :
    (dropTrailingSpaces l).head? = l.head? ∨ dropTrailingSpaces l = [] := by
  cases l with
  | nil => exact Or.inr rfl
  | cons c cs =>
    unfold dropTrailingSpaces
    rcases hd : dropTrailingSpaces cs with _ | ⟨e, es⟩
    · by_cases hs : isSpaceChar c = true
      · rw [if_pos hs]; exact Or.inr rfl
      · rw [if_neg hs]; exact Or.inl rfl
    · exact Or.inl rfl

theorem lastNotSpace_dropTrailingSpaces (l : List Char) :
    LastNotSpace (dropTrailingSpaces l) := by
  induction l with
  | nil => trivial
  | cons c cs ih =>
    unfold dropTrailingSpaces
    rcases hd : dropTrailingSpaces cs with _ | ⟨e, es⟩
    · by_cases hs : isSpaceChar c = true
      · rw [if_pos hs]; trivial
      · rw [if_neg hs]
        exact Bool.eq_false_iff.mpr hs
    · rw [hd] at ih
      exact ih

theorem noTwoSpaces_dropTrailingSpaces (l : List Char) (h : NoTwoSpaces l) :
    NoTwoSpaces (dropTrailingSpaces l) := by
  induction l with
  | nil => exact h
  | cons c cs ih =>
    rw [NoTwoSpaces, List.chain'_cons'] at h
    unfold dropTrailingSpaces
    rcases hd : dropTrailingSpaces cs with _ | ⟨e, es⟩
    · by_cases hs : isSpaceChar c = true
      · rw [if_pos hs]; exact List.chain'_nil
      · rw [if_neg hs]; exact List.chain'_singleton c
    · rw [NoTwoSpaces, List.chain'_cons']
      constructor
      · intro y hy
        rcases head?_dropTrailingSpaces cs with h' | h'
        · rw [hd] at h'
          apply h.1
          rw [← h']
          exact hy
        · rw [h'] at hd; cases hd
      · rw [← hd]
        exact ih h.2

theorem runsOKAux_dropTrailingSpaces (l : List Char) :
    ∀ k, runsOKAux k l = true → runsOKAux k (dropTrailingSpaces l) = true := by
  induction l with
  | nil => intro k h; exact h
  | cons c cs ih =>
    intro k h
    rw [runsOKAux_cons] at h
    unfold dropTrailingSpaces
    by_cases hc : isDigitChar c = true
    · rw [if_pos hc] at h
      have hs : isSpaceChar c = false := by
        rw [isDigitChar_iff] at hc
        rcases h' : isSpaceChar c with _ | _
        · rfl
        · rw [isSpaceChar_iff] at h'; omega
      rcases hd : dropTrailingSpaces cs with _ | ⟨e, es⟩
      · rw [hs]
        simp only [Bool.false_eq_true, if_false]
        rw [runsOKAux_cons, if_pos hc, ← hd]
        exact ih (k + 1) h
      · rw [runsOKAux_cons, if_pos hc, ← hd]
        exact ih (k + 1) h
    · rw [if_neg hc, Bool.and_eq_true] at h
      rcases hd : dropTrailingSpaces cs with _ | ⟨e, es⟩
      · by_cases hs : isSpaceChar c = true
        · rw [if_pos hs, runsOKAux_nil]
          exact h.1
        · rw [if_neg hs, runsOKAux_cons, if_neg hc, runsOKAux_nil, h.1]
          simp
      · rw [runsOKAux_cons, if_neg hc, h.1, ← hd, ih 0 h.2]
        simp

theorem lastNotSpace_dropWhile (p : Char → Bool) (l : List Char) (h : LastNotSpace l) :
    LastNotSpace (l.dropWhile p) := by
  induction l with
  | nil => exact h
  | cons c cs ih =>
    rw [List.dropWhile_cons]
    by_cases hp : p c = true
    · rw [if_pos hp]
      apply ih
      cases cs with
      | nil => trivial
      | cons d ds => exact h
    · rw [if_neg hp]
      exact h

theorem headNotSpace_dropLeadingSpaces (l : List Char) :
    HeadNotSpace (dropLeadingSpaces l) := by
  induction l with
  | nil => intro c hc; cases hc
  | cons c cs ih =>
    unfold dropLeadingSpaces
    rw [List.dropWhile_cons]
    by_cases hs : isSpaceChar c = true
    · rw [if_pos hs]; exact ih
    · rw [if_neg hs]
      intro d hd
      simp at hd
      rw [← hd]
      exact Bool.eq_false_iff.mpr hs

theorem runsOKAux_dropLeadingSpaces (l : List Char) (h : runsOK l = true) :
    runsOK (dropLeadingSpaces l) = true := by
  induction l with
  | nil => exact h
  | cons c cs ih =>
    unfold dropLeadingSpaces at *
    rw [List.dropWhile_cons]
    by_cases hs : isSpaceChar c = true
    · have hc : isDigitChar c = false := by
        rcases h' : isDigitChar c with _ | _
        · rfl
        · rw [isDigitChar_iff] at h'
          rw [isSpaceChar_iff] at hs
          omega
      rw [if_pos hs]
      rw [runsOK, runsOKAux_cons, if_neg (by rw [hc]; intro hx; cases hx),
        Bool.and_eq_true] at h
      exact ih h.2
    · rw [if_neg hs]
      exact h

theorem headNotSpace_collapseAux_true (l : List Char) :
    HeadNotSpace (collapseAux true l) := by
  induction l with
  | nil => intro c hc; cases hc
  | cons c cs ih =>
    rw [collapseAux_cons]
    by_cases hs : isSpaceChar c = true
    · rw [if_pos hs]
      simp only [if_true]
      exact ih
    · rw [if_neg hs]
      intro d hd
      simp at hd
      rw [← hd]
      exact Bool.eq_false_iff.mpr hs

theorem noTwoSpaces_collapseAux (l : List Char) : ∀ prev, NoTwoSpaces (collapseAux prev l) := by
  induction l with
  | nil => intro prev; rw [collapseAux_nil]; exact List.chain'_nil
  | cons c cs ih =>
    intro prev
    rw [collapseAux_cons]
    by_cases hs : isSpaceChar c = true
    · rw [if_pos hs]
      cases prev with
      | true => simp only [if_true]; exact ih true
      | false =>
        simp only [Bool.false_eq_true, if_false]
        rw [NoTwoSpaces, List.chain'_cons']
        refine ⟨?_, ih true⟩
        intro y hy
        exact Or.inr (headNotSpace_collapseAux_true cs y hy)
    · rw [if_neg hs]
      rw [NoTwoSpaces, List.chain'_cons']
      refine ⟨?_, ih false⟩
      intro y _
      exact Or.inl (Bool.eq_false_iff.mpr hs)

theorem mem_collapseAux {c : Char} :
    ∀ {l : List Char} {prev : Bool}, c ∈ collapseAux prev l →
      c = ' ' ∨ (c ∈ l ∧ isSpaceChar c = false) := by
  intro l
  induction l with
  | nil => intro prev h; rw [collapseAux_nil] at h; cases h
  | cons d ds ih =>
    intro prev h
    rw [collapseAux_cons] at h
    by_cases hs : isSpaceChar d = true
    · rw [if_pos hs] at h
      cases prev with
      | true =>
        simp only [if_true] at h
        rcases ih h with h' | h'
        · exact Or.inl h'
        · exact Or.inr ⟨List.mem_cons_of_mem d h'.1, h'.2⟩
      | false =>
        simp only [Bool.false_eq_true, if_false] at h
        rcases List.mem_cons.mp h with rfl | h'
        · exact Or.inl rfl
        · rcases ih h' with h'' | h''
          · exact Or.inl h''
          · exact Or.inr ⟨List.mem_cons_of_mem d h''.1, h''.2⟩
    · rw [if_neg hs] at h
      rcases List.mem_cons.mp h with rfl | h'
      · exact Or.inr ⟨List.mem_cons_self c ds, Bool.eq_false_iff.mpr hs⟩
      · rcases ih h' with h'' | h''
        · exact Or.inl h''
        · exact Or.inr ⟨List.mem_cons_of_mem d h''.1, h''.2⟩

theorem runsOKAux_collapseAux (l : List Char) :
    ∀ k prev, runsOKAux k l = true → (prev = true → k = 0) →
      runsOKAux k (collapseAux prev l) = true := by
  induction l with
  | nil => intro k prev h _; rw [collapseAux_nil]; exact h
  | cons c cs ih =>
    intro k prev h hprev
    rw [runsOKAux_cons] at h
    rw [collapseAux_cons]
    by_cases hc : isDigitChar c = true
    · have hs : isSpaceChar c = false := by
        rcases h' : isSpaceChar c with _ | _
        · rfl
        · rw [isSpaceChar_iff] at h'
          rw [isDigitChar_iff] at hc
          omega
      rw [if_pos hc] at h
      rw [hs]
      simp only [Bool.false_eq_true, if_false]
      rw [runsOKAux_cons, if_pos hc]
      exact ih (k + 1) false h (by intro hx; cases hx)
    · rw [if_neg hc, Bool.and_eq_true] at h
      by_cases hs : isSpaceChar c = true
      · rw [if_pos hs]
        cases prev with
        | true =>
          simp only [if_true]
          rw [hprev rfl]
          rw [hprev rfl] at h
          exact ih 0 true h.2 (fun _ => rfl)
        | false =>
          simp only [Bool.false_eq_true, if_false]
          rw [runsOKAux_cons, if_neg (by decide), h.1]
          rw [ih 0 true h.2 (fun _ => rfl)]
          simp
      · rw [if_neg hs]
        rw [runsOKAux_cons, if_neg hc, h.1, ih 0 false h.2 (by intro hx; cases hx)]
        simp

theorem mem_flushDigitRun {c : Char} {p : List Char} (h : c ∈ flushDigitRun p) :
    c = ' ' ∨ c ∈ p := by
  unfold flushDigitRun at h
  by_cases hl : 4 ≤ p.length
  · rw [if_pos hl] at h
    simp at h
    exact Or.inl h
  · rw [if_neg hl] at h
    exact Or.inr h

theorem mem_longDigitRunsAux {c : Char} :
    ∀ {l p : List Char}, c ∈ longDigitRunsAux p l → c = ' ' ∨ c ∈ p ∨ c ∈ l := by
  intro l
  induction l with
  | nil =>
    intro p h
    rw [longDigitRunsAux_nil] at h
    rcases mem_flushDigitRun h with h' | h'
    · exact Or.inl h'
    · exact Or.inr (Or.inl h')
  | cons d ds ih =>
    intro p h
    rw [longDigitRunsAux_cons] at h
    by_cases hd : isDigitChar d = true
    · rw [if_pos hd] at h
      rcases ih h with h' | h' | h'
      · exact Or.inl h'
      · rcases List.mem_append.mp h' with h'' | h''
        · exact Or.inr (Or.inl h'')
        · simp at h''
          exact Or.inr (Or.inr (by simp [h'']))
      · exact Or.inr (Or.inr (List.mem_cons_of_mem d h'))
    · rw [if_neg hd] at h
      rcases List.mem_append.mp h with h' | h'
      · rcases mem_flushDigitRun h' with h'' | h''
        · exact Or.inl h''
        · exact Or.inr (Or.inl h'')
      · rcases List.mem_cons.mp h' with rfl | h''
        · exact Or.inr (Or.inr (List.mem_cons_self c ds))
        · rcases ih h'' with h3 | h3 | h3
          · exact Or.inl h3
          · cases h3
          · exact Or.inr (Or.inr (List.mem_cons_of_mem d h3))

theorem runsOKAux_digits_append (p : List Char) :
    ∀ (rest : List Char) (k : Nat), p.all isDigitChar = true →
      runsOKAux k (p ++ rest) = runsOKAux (k + p.length) rest := by
  induction p with
  | nil => intro rest k _; simp
  | cons c cs ih =>
    intro rest k hp
    rw [List.all_cons, Bool.and_eq_true] at hp
    rw [List.cons_append, runsOKAux_cons, if_pos hp.1, ih rest (k + 1) hp.2]
    congr 1
    simp
    omega

theorem runsOK_longDigitRunsAux (l : List Char) :
    ∀ p, p.all isDigitChar = true → runsOK (longDigitRunsAux p l) = true := by
  induction l with
  | nil =>
    intro p hp
    rw [longDigitRunsAux_nil, flushDigitRun]
    by_cases hl : 4 ≤ p.length
    · rw [if_pos hl]; decide
    · rw [if_neg hl, runsOK, runsOKAux_digits p hp 0]
      simp
      omega
  | cons c cs ih =>
    intro p hp
    rw [longDigitRunsAux_cons]
    by_cases hc : isDigitChar c = true
    · rw [if_pos hc]
      exact ih (p ++ [c]) (by simp [List.all_append, hp, hc])
    · rw [if_neg hc, flushDigitRun]
      by_cases hl : 4 ≤ p.length
      · rw [if_pos hl]
        rw [runsOK, List.cons_append, runsOKAux_cons, if_neg (by decide), List.nil_append,
          runsOKAux_cons, if_neg hc]
        rw [show runsOKAux 0 (longDigitRunsAux [] cs) = true from ih [] rfl]
        decide
      · rw [if_neg hl]
        rw [runsOK, runsOKAux_digits_append p (c :: longDigitRunsAux [] cs) 0 hp,
          runsOKAux_cons, if_neg hc]
        rw [show runsOKAux 0 (longDigitRunsAux [] cs) = true from ih [] rfl]
        simp
        omega

theorem mem_punctToSpace {c : Char} {l : List Char} (h : c ∈ punctToSpace l) :
    c = ' ' ∨ (c ∈ l ∧ (isWordChar c || isSpaceChar c) = true) := by
  unfold punctToSpace at h
  rcases List.mem_map.mp h with ⟨d, hd, rfl⟩
  unfold punctToSpaceChar
  by_cases hw : (isWordChar d || isSpaceChar d) = true
  · rw [if_pos hw]
    exact Or.inr ⟨hd, hw⟩
  · rw [if_neg hw]
    exact Or.inl rfl

theorem lowerChar_fixed_of_mem_map {c : Char} {l : List Char} (h : c ∈ l.map lowerChar) :
    lowerChar c = c := by
  rcases List.mem_map.mp h with ⟨d, _, rfl⟩
  exact lowerChar_idem d

theorem normalizeChars_good (l : List Char) : ∀ c ∈ normalizeChars l, goodChar c = true := by
  intro c hc
  unfold normalizeChars stripChars at hc
  have hc1 := mem_dropTrailingSpaces (List.Sublist.mem hc (List.dropWhile_sublist _))
  rcases mem_collapseAux hc1 with rfl | ⟨hc2, hns⟩
  · decide
  · rcases mem_longDigitRunsAux hc2 with rfl | h | hc3
    · rw [show isSpaceChar ' ' = true from rfl] at hns; cases hns
    · cases h
    · rcases mem_punctToSpace hc3 with rfl | ⟨hc4, hws⟩
      · rw [show isSpaceChar ' ' = true from rfl] at hns; cases hns
      · have hword : isWordChar c = true := by
          rcases Bool.or_eq_true _ _ |>.mp hws with h | h
          · exact h
          · rw [h] at hns; cases hns
        unfold goodChar
        rw [hword, lowerChar_fixed_of_mem_map hc4]
        simp

theorem normalizeChars_headNotSpace (l : List Char) : HeadNotSpace (normalizeChars l) :=
  headNotSpace_dropLeadingSpaces _

theorem normalizeChars_lastNotSpace (l : List Char) : LastNotSpace (normalizeChars l) :=
  lastNotSpace_dropWhile _ _ (lastNotSpace_dropTrailingSpaces _)

theorem normalizeChars_noTwoSpaces (l : List Char) : NoTwoSpaces (normalizeChars l) :=
  List.Chain'.suffix
    (noTwoSpaces_dropTrailingSpaces _ (noTwoSpaces_collapseAux _ false))
    (List.dropWhile_suffix _)

theorem normalizeChars_runsOK (l : List Char) : runsOK (normalizeChars l) = true := by
  apply runsOKAux_dropLeadingSpaces
  apply runsOKAux_dropTrailingSpaces
  exact runsOKAux_collapseAux _ 0 false (runsOK_longDigitRunsAux _ [] rfl)
    (by intro h; cases h)

theorem normalizeChars_idem (l : List Char) :
    normalizeChars (normalizeChars l) = normalizeChars l := by
  have good := normalizeChars_good l
  conv_lhs => rw [normalizeChars]
  rw [map_lowerChar_fix _ good, punctToSpace_fix _ good,
    longDigitRunsToSpace_fix _ (normalizeChars_runsOK l),
    show collapseSpaces (normalizeChars l) = normalizeChars l from
      collapseAux_fix _ false (normalizeChars_noTwoSpaces l)
        (fun c hc hs => goodChar_space c (good c hc) hs) (by intro h; cases h),
    stripChars_fix _ (normalizeChars_headNotSpace l) (normalizeChars_lastNotSpace l)]

/-- **C7.** For all text `T`, `normalize(normalize(T)) = normalize(T)`:
the text normalizer (lower-case, punctuation to spaces, long digit runs
to a space, whitespace collapse, trim) is idempotent on its own
output. -/
theorem normalize_text_idempotent (s : String) :
    normalize_text (normalize_text s) = normalize_text s :=
  congrArg String.mk (normalizeChars_idem s.data)

theorem sha1Block_length (h block : List Nat) : (sha1Block h block).length = 5 := rfl

theorem foldl_sha1Block_length (blocks : List (List Nat)) :
    ∀ h : List Nat, h.length = 5 → (blocks.foldl sha1Block h).length = 5 := by
  induction blocks with
  | nil => intro h hh; exact hh
  | cons b bs ih => intro h _; exact ih _ (sha1Block_length _ _)

theorem sha1Words_length (msg : List Nat) : (sha1Words msg).length = 5 :=
  foldl_sha1Block_length _ _ rfl

set_option linter.unnecessarySeqFocus false in
theorem sha1Hex_length (msg : List Nat) : (sha1Hex msg).length = 40 := by
  have h5 := sha1Words_length msg
  unfold sha1Hex
  rcases hw : sha1Words msg with _ | ⟨a, _ | ⟨b, _ | ⟨c, _ | ⟨d, _ | ⟨e, _ | ⟨f, fs⟩⟩⟩⟩⟩⟩ <;>
    rw [hw] at h5 <;> simp at h5 <;> simp [wordHexChars]

theorem fingerprint_hash_v1_length (txn_kind description : String) (len : Nat) :
    (fingerprint_hash_v1 txn_kind description len).length = min len 40 := by
  unfold fingerprint_hash_v1
  show (String.mk _).length = _
  rw [show ∀ l : List Char, (String.mk l).length = l.length from fun _ => rfl,
    List.length_take, sha1Hex_length]

set_option maxRecDepth 100000 in
/-- **C5 counterexample.** The returned string does not always have the
requested length: at requested length 41 the digest has only 40 hex
characters. -/
theorem fingerprint_hash_v1_length_counterexample :
    (fingerprint_hash_v1 "expense" "coffee shop" 41).length ≠ 41 := by decide

set_option maxRecDepth 100000 in
/-- **C5 (amended).** `fingerprint_hash_v1` is deterministic, returns
exactly the requested length whenever the request is at most the 40 hex
characters of a SHA-1 digest (so in particular at the default 12), and
`fingerprint_hash_v1 "expense" "coffee shop" = "610547d2f1e0"`. -/
theorem fingerprint_hash_v1_spec :
    (∀ (txn_kind description : String) (len : Nat), len ≤ 40 →
      (fingerprint_hash_v1 txn_kind description len).length = len) ∧
    (∀ k1 d1 l1 k2 d2 l2, k1 = k2 → d1 = d2 → l1 = l2 →
      fingerprint_hash_v1 k1 d1 l1 = fingerprint_hash_v1 k2 d2 l2) ∧
    fingerprint_hash_v1 "expense" "coffee shop" = "610547d2f1e0" := by
  refine ⟨?_, ?_, by decide⟩
  · intro k d len hlen
    rw [fingerprint_hash_v1_length]
    omega
  · intro k1 d1 l1 k2 d2 l2 h1 h2 h3
    rw [h1, h2, h3]

/-- Closed instance of the amended C5 theorem. -/
theorem fingerprint_hash_v1_spec_witness :
    (fingerprint_hash_v1 "expense" "coffee shop" 12).length = 12 ∧
    fingerprint_hash_v1 "a" "b" 6 = fingerprint_hash_v1 "a" "b" 6 :=
  ⟨fingerprint_hash_v1_spec.1 "expense" "coffee shop" 12 (by decide),
    fingerprint_hash_v1_spec.2.1 "a" "b" 6 "a" "b" 6 rfl rfl rfl⟩

theorem ruleMatchesAux_cons (r : Rule) (t : Txn) (hFH hFP : Bool) (c : KeyCol)
    (cs : List KeyCol) :
    ruleMatchesAux r t hFH hFP (c :: cs) =
      if ((c = KeyCol.fingerprint || c = KeyCol.description_clean_norm) && hFH) = true then
        ruleMatchesAux r t hFH hFP cs
      else if (c = KeyCol.description_clean_norm && hFP) = true then
        ruleMatchesAux r t hFH hFP cs
      else
        match blankToNoneOpt (ruleGet r c) with
        | none => ruleMatchesAux r t hFH hFP cs
        | some ruleValue =>
          if normalize_key_value c (txnGet t c) = some ruleValue then
            ruleMatchesAux r t hFH hFP cs
          else false := rfl

theorem suppressed_iff (r : Rule) (c : KeyCol) :
    (((c = KeyCol.fingerprint || c = KeyCol.description_clean_norm) &&
        (blankToNoneOpt r.fingerprint_hash).isSome) = true ∨
      ((c = KeyCol.description_clean_norm && (blankToNoneOpt r.fingerprint).isSome) = true)) ↔
    keyFieldSuppressed r c := by
  unfold keyFieldSuppressed
  simp [Option.isSome_iff_ne_none]

theorem ruleMatchesAux_iff (r : Rule) (t : Txn) (cols : List KeyCol) :
    ruleMatchesAux r t (blankToNoneOpt r.fingerprint_hash).isSome
      (blankToNoneOpt r.fingerprint).isSome cols = true ↔
    ∀ c ∈ cols, keyFieldSuppressed r c ∨ keyFieldWildcard r c ∨ keyFieldAgrees r t c := by
  induction cols with
  | nil => simp [ruleMatchesAux]
  | cons c cs ih =>
    rw [ruleMatchesAux_cons, List.forall_mem_cons]
    by_cases hsup : keyFieldSuppressed r c
    · have hb := (suppressed_iff r c).mpr hsup
      rcases hb with hb | hb
      · rw [if_pos hb]
        simp [hsup, ih]
      · by_cases hb1 : ((c = KeyCol.fingerprint || c = KeyCol.description_clean_norm) &&
            (blankToNoneOpt r.fingerprint_hash).isSome) = true
        · rw [if_pos hb1]
          simp [hsup, ih]
        · rw [if_neg hb1, if_pos hb]
          simp [hsup, ih]
    · have hb := (suppressed_iff r c).not.mpr hsup
      push_neg at hb
      rw [if_neg hb.1, if_neg hb.2]
      cases hw : blankToNoneOpt (ruleGet r c) with
      | none =>
        have hwild : keyFieldWildcard r c := hw
        simp [hwild, ih]
      | some rv =>
        by_cases heq : normalize_key_value c (txnGet t c) = some rv
        · have hagree : keyFieldAgrees r t c := by
            unfold keyFieldAgrees
            rw [hw, heq]
          simp [heq, hagree, ih]
        · have hnot : ¬ (keyFieldSuppressed r c ∨ keyFieldWildcard r c ∨ keyFieldAgrees r t c) := by
            intro h
            rcases h with h | h | h
            · exact hsup h
            · unfold keyFieldWildcard at h
              rw [hw] at h
              cases h
            · unfold keyFieldAgrees at h
              rw [hw] at h
              exact heq h
          simp [heq, hnot]

/-- **C1.** A rule matches a transaction iff, for each of the 9 key
fields, either the rule's value is a wildcard or the rule's normalized
value equals the transaction's normalized value — except that a
non-wildcard `fingerprint_hash` suppresses the `fingerprint` and
`description_clean_norm` fields, and a non-wildcard `fingerprint`
suppresses the `description_clean_norm` field. -/
theorem rule_matches_spec (r : Rule) (t : Txn) :
    rule_matches r t = true ↔ specRuleMatches r t :=
  ruleMatchesAux_iff r t RULE_KEY_COLUMNS

theorem computeSpecificityAux_cons (r : Rule) (hFH hFP : Bool) (c : KeyCol)
    (cs : List KeyCol) :
    computeSpecificityAux r hFH hFP (c :: cs) =
      if ((c = KeyCol.fingerprint || c = KeyCol.description_clean_norm) && hFH) = true then
        computeSpecificityAux r hFH hFP cs
      else if (c = KeyCol.description_clean_norm && hFP) = true then
        computeSpecificityAux r hFH hFP cs
      else if (blankToNoneOpt (ruleGet r c)).isSome = true then
        1 + computeSpecificityAux r hFH hFP cs
      else computeSpecificityAux r hFH hFP cs := rfl

theorem computeSpecificityAux_eq (r : Rule) (cols : List KeyCol) :
    computeSpecificityAux r (blankToNoneOpt r.fingerprint_hash).isSome
      (blankToNoneOpt r.fingerprint).isSome cols =
    (cols.filter
      (fun c => decide (¬ keyFieldSuppressed r c ∧ ¬ keyFieldWildcard r c))).length := by
  induction cols with
  | nil => rfl
  | cons c cs ih =>
    rw [computeSpecificityAux_cons, List.filter_cons]
    by_cases hsup : keyFieldSuppressed r c
    · have hb := (suppressed_iff r c).mpr hsup
      have hpred : (decide (¬ keyFieldSuppressed r c ∧ ¬ keyFieldWildcard r c)) = false := by
        simp [hsup]
      rw [hpred]
      simp only [Bool.false_eq_true, if_false]
      rcases hb with hb | hb
      · rw [if_pos hb]
        exact ih
      · by_cases hb1 : ((c = KeyCol.fingerprint || c = KeyCol.description_clean_norm) &&
            (blankToNoneOpt r.fingerprint_hash).isSome) = true
        · rw [if_pos hb1]
          exact ih
        · rw [if_neg hb1, if_pos hb]
          exact ih
    · have hb := (suppressed_iff r c).not.mpr hsup
      push_neg at hb
      rw [if_neg hb.1, if_neg hb.2]
      by_cases hw : (blankToNoneOpt (ruleGet r c)).isSome = true
      · have hpred : (decide (¬ keyFieldSuppressed r c ∧ ¬ keyFieldWildcard r c)) = true := by
          apply decide_eq_true
          refine ⟨hsup, ?_⟩
          unfold keyFieldWildcard
          intro h
          rw [h] at hw
          cases hw
        rw [if_pos hw, hpred]
        simp only [if_true, List.length_cons]
        omega
      · have hwild : keyFieldWildcard r c := by
          unfold keyFieldWildcard
          rcases h' : blankToNoneOpt (ruleGet r c) with _ | rv
          · rfl
          · rw [h'] at hw
            simp at hw
        have hpred : (decide (¬ keyFieldSuppressed r c ∧ ¬ keyFieldWildcard r c)) = false := by
          apply decide_eq_false
          intro h
          exact h.2 hwild
        rw [if_neg hw, hpred]
        simp only [Bool.false_eq_true, if_false]
        exact ih

/-- **C3.** The specificity cached at load time counts exactly the
non-wildcard key fields that are actually evaluated under the
suppression rule; in particular a rule keying only on `fingerprint_hash`
(with its `fingerprint` and `description_clean_norm` cells also filled
in) has specificity 1. -/
theorem compute_specificity_spec :
    (∀ r : Rule, compute_specificity r = specEvaluatedCount r) ∧
    compute_specificity hashOnlyRule = 1 :=
  ⟨fun r => computeSpecificityAux_eq r RULE_KEY_COLUMNS, by decide⟩

theorem mapExcept_cons (f : α → Except String β) (x : α) (xs : List α) :
    mapExcept f (x :: xs) =
      match f x with
      | .error e => .error e
      | .ok y =>
        match mapExcept f xs with
        | .error e => .error e
        | .ok ys => .ok (y :: ys) := rfl

theorem mapExcept_ok_iff (f : α → Except String β) (l : List α) :
    (∃ ys, mapExcept f l = .ok ys) ↔ ∀ x ∈ l, ∃ y, f x = .ok y := by
  induction l with
  | nil => simp [mapExcept]
  | cons x xs ih =>
    rw [mapExcept_cons, List.forall_mem_cons]
    cases hfx : f x with
    | error e => simp [hfx]
    | ok y =>
      cases hrec : mapExcept f xs with
      | error e => simp [hfx, hrec, ← ih]
      | ok ys => simp [hfx, hrec, ← ih]

theorem vocab_split (x : String) :
    (x ∈ ["1", "0", "true", "false", "t", "f", "yes", "no", "y", "n"]) ↔
      (x ∈ TRUE_VALUES ∨ x ∈ FALSE_VALUES) := by
  simp [TRUE_VALUES, FALSE_VALUES]
  tauto

theorem parseIsActive_ok_iff (s : String) :
    (∃ b, parseIsActive s = .ok b) ↔ validBoolCell s := by
  unfold parseIsActive validBoolCell blank_to_none
  rw [vocab_split]
  by_cases hb : pstrip s = ""
  · simp [hb]
  · by_cases hT : asciiLower (pstrip s) ∈ TRUE_VALUES
    · simp [hb, hT]
    · by_cases hF : asciiLower (pstrip s) ∈ FALSE_VALUES
      · simp [hb, hT, hF]
      · simp [hb, hT, hF]

theorem parsePriority_ok_iff (s : String) :
    (∃ n, parsePriority s = .ok n) ↔ validPriorityCell s := by
  unfold parsePriority validPriorityCell blank_to_none
  by_cases hb : pstrip s = ""
  · simp [hb]
  · cases hp : parsePyInt (pstrip s) with
    | none => simp [hb, hp]
    | some n => simp [hb, hp]

/-- **C4.** Loading a rule table fails — before any matching runs, so no
classification result is produced — exactly when some `rule_id` is empty
or duplicated, some `is_active` value is outside the recognized boolean
vocabulary, or some `priority` value is neither blank nor
integer-parseable; on any well-formed table loading succeeds. -/
theorem normalize_payee_map_rules_validation (raws : List RawRule) :
    ((∃ rules, normalize_payee_map_rules raws = .ok rules) ↔ tableWellFormed raws) ∧
    (¬ tableWellFormed raws →
      ∀ txns : List Txn, ∃ msg, loadAndClassify raws txns = .error msg) := by
  have main : (∃ rules, normalize_payee_map_rules raws = .ok rules) ↔ tableWellFormed raws := by
    unfold normalize_payee_map_rules tableWellFormed
    by_cases hempty : (raws.map (fun r => pstrip r.rule_id)).contains ""
    · rw [if_pos hempty]
      have hempty' : "" ∈ raws.map (fun r => pstrip r.rule_id) := List.elem_iff.mp hempty
      obtain ⟨raw, hraw, hid⟩ := List.mem_map.mp hempty'

      constructor
      · rintro ⟨rules, h⟩
        cases h
      · intro hWF
        exact absurd hid (hWF.1 raw hraw)
    · rw [if_neg hempty]
      by_cases hnd : (raws.map (fun r => pstrip r.rule_id)).Nodup
      · rw [if_pos hnd]
        cases hact : mapExcept (fun r => parseIsActive r.is_active) raws with
        | error e =>
          have hnall : ¬ ∀ raw ∈ raws, validBoolCell raw.is_active := by
            intro hall
            obtain ⟨ys, hys⟩ := (mapExcept_ok_iff _ raws).mpr
              (fun raw hraw => (parseIsActive_ok_iff _).mpr (hall raw hraw))
            rw [hact] at hys
            cases hys
          constructor
          · rintro ⟨rules, h⟩
            cases h
          · intro hWF
            exact absurd hWF.2.2.1 hnall
        | ok actives =>
          cases hpri : mapExcept (fun r => parsePriority r.priority) raws with
          | error e =>
            have hnall : ¬ ∀ raw ∈ raws, validPriorityCell raw.priority := by
              intro hall
              obtain ⟨ys, hys⟩ := (mapExcept_ok_iff _ raws).mpr
                (fun raw hraw => (parsePriority_ok_iff _).mpr (hall raw hraw))
              rw [hpri] at hys
              cases hys
            constructor
            · rintro ⟨rules, h⟩
              cases h
            · intro hWF
              exact absurd hWF.2.2.2 hnall
          | ok priorities =>
            constructor
            · intro _
              refine ⟨?_, hnd, ?_, ?_⟩
              · intro raw hraw hid
                exact hempty
                  (List.elem_eq_true_of_mem (List.mem_map.mpr ⟨raw, hraw, hid⟩))
              · intro raw hraw
                have := (mapExcept_ok_iff (fun r => parseIsActive r.is_active) raws).mp
                  ⟨actives, hact⟩ raw hraw
                exact (parseIsActive_ok_iff _).mp this
              · intro raw hraw
                have := (mapExcept_ok_iff (fun r => parsePriority r.priority) raws).mp
                  ⟨priorities, hpri⟩ raw hraw
                exact (parsePriority_ok_iff _).mp this
            · intro _
              exact ⟨_, rfl⟩
      · rw [if_neg hnd]
        constructor
        · rintro ⟨rules, h⟩
          cases h
        · intro hWF
          exact absurd hWF.2.1 hnd
  refine ⟨main, ?_⟩
  intro hnWF txns
  cases h : normalize_payee_map_rules raws with
  | error e =>
    refine ⟨e, ?_⟩
    unfold loadAndClassify
    rw [h]
  | ok rules =>
    exact absurd (main.mp ⟨rules, h⟩) hnWF

/-- Closed instance of C4: a table with a duplicated `rule_id` fails
before any matching runs. -/
theorem normalize_payee_map_rules_validation_witness :
    ∃ msg,
      loadAndClassify
        [{ rule_id := "R1", is_active := "", priority := "", txn_kind := "",
           fingerprint_hash := "", fingerprint := "", description_clean_norm := "",
           account_name := "", source := "", direction := "", currency := "",
           amount_bucket := "", payee_canonical := "", category_target := "", notes := "" },
         { rule_id := "R1", is_active := "", priority := "", txn_kind := "",
           fingerprint_hash := "", fingerprint := "", description_clean_norm := "",
           account_name := "", source := "", direction := "", currency := "",
           amount_bucket := "", payee_canonical := "", category_target := "", notes := "" }]
        [] = .error msg :=
  (normalize_payee_map_rules_validation _).2 (by decide) []

theorem rankLE_refl (a : Rule) : rankLE a a := Or.inr ⟨rfl, Or.inr ⟨rfl, le_refl _⟩⟩

theorem rankLE_psLE {a b : Rule} (h : rankLE a b) : psLE (psKey b) (psKey a) := by
  unfold rankLE at h
  unfold psLE psKey
  rcases h with h | ⟨h1, h2⟩
  · exact Or.inl h
  · refine Or.inr ⟨h1.symm, ?_⟩
    rcases h2 with h2 | ⟨h2, _⟩
    · exact le_of_lt h2
    · exact le_of_eq h2.symm

theorem psLE_antisymm {a b : Int × Nat} (h1 : psLE a b) (h2 : psLE b a) : a = b := by
  obtain ⟨a1, a2⟩ := a
  obtain ⟨b1, b2⟩ := b
  unfold psLE at h1 h2
  simp only at h1 h2
  rw [Prod.mk.injEq]
  rcases h1 with h1 | ⟨h1, h1'⟩ <;> rcases h2 with h2 | ⟨h2, h2'⟩ <;>
    exact ⟨by omega, by omega⟩

/-- **C2.** The classification outcome for a prepared transaction: no
match gives the `none` row; a unique top-`(priority, specificity)` rule
gives `unique` with that rule's suggestions; a tie at the top gives
`ambiguous` with empty suggestions and the id-ascending joined tie list;
`match_candidate_rule_ids` always lists all matched rules in ranked order
and `match_rule_count` is the total matched count. -/
theorem apply_rules_outcome (rules : List Rule) (t : Txn) (matched : List Rule)
    (hm : matched = (rules.filter (fun r => r.is_active)).filter (fun r => rule_matches r t)) :
    (matched = [] → apply_rules_to_txn rules t = noneMatchResult) ∧
    (matched ≠ [] →
      (apply_rules_to_txn rules t).match_rule_count = matched.length ∧
      (∃ ranked, List.Perm ranked matched ∧ List.Sorted rankLE ranked ∧
        (apply_rules_to_txn rules t).match_candidate_rule_ids = joinRuleIds ranked) ∧
      (∀ top, topTier matched = [top] →
        (apply_rules_to_txn rules t).match_status = "unique" ∧
        (apply_rules_to_txn rules t).payee_canonical_suggested =
          (blankToNoneOpt top.payee_canonical).getD "" ∧
        (apply_rules_to_txn rules t).category_target_suggested =
          (blankToNoneOpt top.category_target).getD "" ∧
        (apply_rules_to_txn rules t).match_rule_id = top.rule_id) ∧
      (2 ≤ (topTier matched).length →
        (apply_rules_to_txn rules t).match_status = "ambiguous" ∧
        (apply_rules_to_txn rules t).payee_canonical_suggested = "" ∧
        (apply_rules_to_txn rules t).category_target_suggested = "" ∧
        ∃ tiedIds, List.Perm tiedIds ((topTier matched).map (fun r => r.rule_id)) ∧
          List.Sorted (fun a b => a ≤ b) tiedIds ∧
          (apply_rules_to_txn rules t).match_rule_id = String.intercalate ";" tiedIds)) := by
  simp only [apply_rules_to_txn]
  rw [← hm]
  cases matched with
  | nil =>
    refine ⟨fun _ => rfl, fun h => absurd rfl h⟩
  | cons m ms =>
    refine ⟨fun h => absurd h (List.cons_ne_nil m ms), fun _ => ?_⟩
    have hperm := List.perm_insertionSort rankLE (m :: ms)
    have hsort := List.sorted_insertionSort rankLE (m :: ms)
    cases hr : List.insertionSort rankLE (m :: ms) with
    | nil =>
      rw [hr] at hperm
      have := hperm.length_eq
      simp at this
    | cons top rest =>
      rw [hr] at hperm hsort
      simp only [hr]
      have hTopMem : top ∈ m :: ms := hperm.subset (List.mem_cons_self top rest)
      have hF1 : ∀ x ∈ top :: rest, rankLE top x := by
        intro x hx
        rcases List.mem_cons.mp hx with rfl | hx'
        · exact rankLE_refl x
        · exact List.rel_of_sorted_cons hsort x hx'
      have hF1' : ∀ x ∈ m :: ms, rankLE top x := fun x hx => hF1 x (hperm.mem_iff.mpr hx)
      have hFps : ∀ x ∈ m :: ms, psLE (psKey x) (psKey top) :=
        fun x hx => rankLE_psLE (hF1' x hx)
      have hFpred : ∀ r ∈ m :: ms,
          (decide (r.priority = top.priority ∧ r.specificity = top.specificity)) =
            (decide (∀ r' ∈ m :: ms, psLE (psKey r') (psKey r))) := by
        intro r hr'
        apply decide_eq_decide.mpr
        constructor
        · intro hps r' hr''
          have : psKey r = psKey top := by
            unfold psKey
            rw [Prod.mk.injEq]
            exact ⟨hps.1, hps.2⟩
          rw [this]
          exact hFps r' hr''
        · intro hmax
          have h1 : psLE (psKey top) (psKey r) := hmax top hTopMem
          have h2 : psLE (psKey r) (psKey top) := hFps r hr'
          have := psLE_antisymm h2 h1
          unfold psKey at this
          rw [Prod.mk.injEq] at this
          exact this
      have hTiePerm : List.Perm
          ((top :: rest).filter
            (fun r => decide (r.priority = top.priority ∧ r.specificity = top.specificity)))
          (topTier (m :: ms)) := by
        unfold topTier
        refine List.Perm.trans (hperm.filter _) ?_
        rw [List.filter_congr hFpred]
      have hTopTie : top ∈ (top :: rest).filter
          (fun r => decide (r.priority = top.priority ∧ r.specificity = top.specificity)) := by
        apply List.mem_filter.mpr
        exact ⟨List.mem_cons_self top rest, by simp⟩
      have hTieLen : ((top :: rest).filter
          (fun r => decide (r.priority = top.priority ∧ r.specificity = top.specificity))).length =
          (topTier (m :: ms)).length := hTiePerm.length_eq
      by_cases hlt : 1 < ((top :: rest).filter
          (fun r => decide (r.priority = top.priority ∧ r.specificity = top.specificity))).length
      · rw [if_pos hlt]
        refine ⟨rfl, ⟨top :: rest, hperm, hsort, rfl⟩, ?_, ?_⟩
        · intro top' htt
          exfalso
          rw [htt] at hTieLen
          simp only [List.length_cons, List.length_nil] at hTieLen
          omega
        · intro _
          refine ⟨rfl, rfl, rfl, ?_⟩
          refine ⟨((top :: rest).filter
            (fun r => decide (r.priority = top.priority ∧ r.specificity = top.specificity))).map
              (fun r => r.rule_id), hTiePerm.map _, ?_, by simp only [joinRuleIds]⟩
          have hsf : List.Sorted rankLE ((top :: rest).filter
              (fun r => decide (r.priority = top.priority ∧ r.specificity = top.specificity))) :=
            List.Sorted.filter _ hsort
          have hpw : List.Pairwise (fun a b : Rule => a.rule_id ≤ b.rule_id)
              ((top :: rest).filter
                (fun r => decide (r.priority = top.priority ∧ r.specificity = top.specificity))) := by
            apply List.Pairwise.imp_of_mem ?_ hsf
            intro a b ha hb hab
            have hpa := (List.mem_filter.mp ha).2
            have hpb := (List.mem_filter.mp hb).2
            rw [decide_eq_true_iff] at hpa hpb
            unfold rankLE at hab
            rcases hab with h | ⟨h1, h2⟩
            · exfalso
              rw [hpa.1, hpb.1] at h
              exact lt_irrefl _ h
            · rcases h2 with h2 | ⟨h2, h3⟩
              · exfalso
                rw [hpa.2, hpb.2] at h2
                exact lt_irrefl _ h2
              · exact h3
          exact List.pairwise_map.mpr hpw
      · rw [if_neg hlt]
        refine ⟨rfl, ⟨top :: rest, hperm, hsort, rfl⟩, ?_, ?_⟩
        · intro top' htt
          have htp : (top :: rest).filter
              (fun r => decide (r.priority = top.priority ∧ r.specificity = top.specificity)) =
              [top'] := by
            apply List.perm_singleton.mp
            rw [← htt]
            exact hTiePerm
          have : top = top' := by
            have := hTopTie
            rw [htp] at this
            simpa using this
          subst this
          exact ⟨rfl, rfl, rfl, rfl⟩
        · intro h2
          exfalso
          omega
  

/-- Closed instance of C2: two tied rules produce an ambiguous result
with the id-ascending joined tie list. -/
theorem apply_rules_outcome_witness :
    (apply_rules_to_txn [tiedRuleA, tiedRuleB] bankTxn).match_status = "ambiguous" ∧
    (apply_rules_to_txn [tiedRuleA, tiedRuleB] bankTxn).payee_canonical_suggested = "" ∧
    (apply_rules_to_txn [tiedRuleA, tiedRuleB] bankTxn).category_target_suggested = "" ∧
    ∃ tiedIds,
      List.Perm tiedIds ((topTier [tiedRuleA, tiedRuleB]).map (fun r => r.rule_id)) ∧
      List.Sorted (fun a b => a ≤ b) tiedIds ∧
      (apply_rules_to_txn [tiedRuleA, tiedRuleB] bankTxn).match_rule_id =
        String.intercalate ";" tiedIds := by
  have h := (apply_rules_outcome [tiedRuleA, tiedRuleB] bankTxn [tiedRuleA, tiedRuleB]
    (by decide)).2 (by decide)
  exact ⟨(h.2.2.2 (by decide)).1, (h.2.2.2 (by decide)).2.1, (h.2.2.2 (by decide)).2.2.1,
    (h.2.2.2 (by decide)).2.2.2⟩

theorem pick_series_cons (df : Frame) (c : String) (cs : List String) (dflt : String) :
    pick_series df (c :: cs) dflt =
      match lookupCol df c with
      | none => pick_series df cs dflt
      | some vals =>
        if (vals.map pstrip).any (fun v => v ≠ "") then vals.map pstrip
        else pick_series df cs dflt := rfl

theorem pick_series_skip (df : Frame) (dflt : String) :
    ∀ pre, (∀ c ∈ pre, colBlankOrAbsent df c) →
      ∀ cols, pick_series df (pre ++ cols) dflt = pick_series df cols dflt := by
  intro pre
  induction pre with
  | nil => intro _ cols; rfl
  | cons c pre' ih =>
    intro h cols
    rw [List.cons_append, pick_series_cons]
    have hc := h c (by simp)
    unfold colBlankOrAbsent at hc
    cases hl : lookupCol df c with
    | none => exact ih (fun x hx => h x (by simp [hx])) cols
    | some vals =>
      rw [hl] at hc
      have hc' : ∀ v ∈ vals, pstrip v = "" := hc
      have hany : (vals.map pstrip).any (fun v => v ≠ "") = false := by
        simp only [List.any_eq_false]
        intro x hx
        rcases List.mem_map.mp hx with ⟨w, hw, rfl⟩
        simp [hc' w hw]
      simp only [hany, Bool.false_eq_true, if_false]
      exact ih (fun x hx => h x (by simp [hx])) cols

theorem pick_series_hit (df : Frame) (sel : String) (selVals : List String) (dflt : String)
    (cols : List String) (hsel : lookupCol df sel = some selVals)
    (hnon : (selVals.map pstrip).any (fun w => w ≠ "") = true) :
    pick_series df (sel :: cols) dflt = selVals.map pstrip := by
  rw [pick_series_cons, hsel]
  simp only [hnon, if_true]

theorem lookupCol_length (df : Frame) (name : String) (vals : List String)
    (hwf : frameWF df) (h : lookupCol df name = some vals) : vals.length = df.nrows := by
  unfold lookupCol at h
  cases hf : df.cols.find? (fun p => p.1 = name) with
  | none => rw [hf] at h; cases h
  | some p =>
    rw [hf] at h
    simp only [Option.map_some'] at h
    have h2 : p.2 = vals := Option.some.inj h
    have := hwf p (List.mem_of_find?_eq_some hf)
    rw [← h2]
    exact this

/-- Infinity and `nan` literals behave as in the pandas parser: signed
infinities give signed directions, `nan` is filled with `0`. -/
theorem compute_direction_infinity :
    compute_direction "inf" = "inflow" ∧ compute_direction "+Inf" = "inflow" ∧
    compute_direction "INFINITY" = "inflow" ∧ compute_direction "-inf" = "outflow" ∧
    compute_direction "-Infinity" = "outflow" ∧ compute_direction "nan" = "zero" ∧
    compute_direction "" = "zero" := by decide

/-- **C10.** A row whose `direction` is blank or absent and whose
`amount_ils` is missing or unparseable is silently coerced: the amount
counts as `0`, the derived direction is `"zero"`, no error is raised and
the row is kept (the output has one direction per row). -/
theorem direction_unparseable_zero (df : Frame) (i : Nat)
    (hwf : frameWF df) (hi : i < df.nrows)
    (hdir : dirBlankAt df i) (hamt : amountUnparseableAt df i) :
    (prepareDirection df)[i]? = some "zero" ∧ (prepareDirection df).length = df.nrows := by
  unfold dirBlankAt at hdir
  unfold amountUnparseableAt at hamt
  have hbase : (prepareDirBase df)[i]? = some "" ∧ (prepareDirBase df).length = df.nrows := by
    unfold prepareDirBase
    cases hl : lookupCol df "direction" with
    | none =>
      exact ⟨List.getElem?_replicate_of_lt hi, List.length_replicate _ _⟩
    | some vals =>
      rw [hl] at hdir
      have hlen : vals.length = df.nrows := lookupCol_length df _ vals hwf hl
      have hv : ∃ w, vals[i]? = some w ∧ pstrip w = "" := by
        have hdir' : (match vals[i]? with | none => True | some v => pstrip v = "") := hdir
        revert hdir'
        cases hvi : vals[i]? with
        | none =>
          intro _
          exfalso
          rw [List.getElem?_eq_none_iff] at hvi
          omega
        | some w => exact fun hdir' => ⟨w, rfl, hdir'⟩
      obtain ⟨w, hwi, hwb⟩ := hv
      constructor
      · rw [List.getElem?_map, hwi]
        show some (asciiLower (pstrip w)) = some ""
        rw [hwb]
        rfl
      · rw [List.length_map]
        exact hlen
  have hwa : ((prepareDirWithAmount df)[i]? = some "" ∨
        (prepareDirWithAmount df)[i]? = some "zero") ∧
      (prepareDirWithAmount df).length = df.nrows := by
    unfold prepareDirWithAmount
    cases ha : lookupCol df "amount_ils" with
    | none => exact ⟨Or.inl hbase.1, hbase.2⟩
    | some amounts =>
      rw [ha] at hamt
      have halen : amounts.length = df.nrows := lookupCol_length df _ amounts hwf ha
      have hai : ∃ a, amounts[i]? = some a ∧ parseNumeric a = none := by
        have hamt' : (match amounts[i]? with | none => True | some v => parseNumeric v = none) :=
          hamt
        revert hamt'
        cases hvi : amounts[i]? with
        | none =>
          intro _
          exfalso
          rw [List.getElem?_eq_none_iff] at hvi
          omega
        | some a => exact fun hamt' => ⟨a, rfl, hamt'⟩
      obtain ⟨a, hat, hap⟩ := hai
      refine ⟨Or.inr ?_, ?_⟩
      · rw [List.getElem?_map]
        rw [show ((prepareDirBase df).zip amounts)[i]? = some ("", a) from by
          unfold List.zip
          rw [List.getElem?_zipWith, hbase.1, hat]]
        show some (if ("" : String) = "" then compute_direction a else "") = some "zero"
        rw [if_pos rfl, show compute_direction a = "zero" from by
          unfold compute_direction
          rw [hap]
          rfl]
      · rw [List.length_map, List.length_zip, hbase.2, halen]
        exact Nat.min_self _
  unfold prepareDirection
  refine ⟨?_, ?_⟩
  · rcases hwa.1 with h1 | h1
    · rw [List.getElem?_map, h1]
      show some (if ("" : String) = "" then "zero" else "") = some "zero"
      rw [if_pos rfl]
    · rw [List.getElem?_map, h1]
      show some (if ("zero" : String) = "" then "zero" else "zero") = some "zero"
      rw [if_neg (by decide)]
  · rw [List.length_map]
    exact hwa.2

/-- Closed instance of C10: an unparseable `amount_ils` with no direction
column yields direction `"zero"` and keeps the row. -/
theorem direction_unparseable_zero_witness :
    (prepareDirection ⟨[("amount_ils", ["abc"])], 1⟩)[0]? = some "zero" ∧
    (prepareDirection ⟨[("amount_ils", ["abc"])], 1⟩).length = 1 :=
  direction_unparseable_zero ⟨[("amount_ils", ["abc"])], 1⟩ 0 (by decide) (by decide)
    (by decide) (by decide)

set_option linter.unusedVariables false in
/-- **C8.** The description source text is selected per source column for
the whole batch: the first column in the fallback chain with any
non-blank value supplies the description for every row, so a row that is
blank in the selected column gets an empty normalized description even
when a later fallback column is non-empty for that row. -/
theorem description_source_per_batch (df : Frame) (pre post : List String) (sel : String)
    (selVals : List String) (i : Nat) (v : String)
    (hchain : DESCRIPTION_SOURCE_COLUMNS = pre ++ sel :: post)
    (hpre : ∀ c ∈ pre, colBlankOrAbsent df c)
    (hsel : lookupCol df sel = some selVals)
    (hnon : (selVals.map pstrip).any (fun w => w ≠ "") = true)
    (hrow : selVals[i]? = some v) (hblank : pstrip v = "")
    (hlater : ∃ c' ∈ post, ∃ vals' v', lookupCol df c' = some vals' ∧
      vals'[i]? = some v' ∧ pstrip v' ≠ "") :
    pick_series df DESCRIPTION_SOURCE_COLUMNS "" = selVals.map pstrip ∧
    (prepareDescription df)[i]? = some "" := by
  have hmain : pick_series df DESCRIPTION_SOURCE_COLUMNS "" = selVals.map pstrip := by
    rw [hchain, pick_series_skip df "" pre hpre (sel :: post),
      pick_series_hit df sel selVals "" post hsel hnon]
  refine ⟨hmain, ?_⟩
  unfold prepareDescription
  rw [hmain, List.getElem?_map, List.getElem?_map, hrow]
  show some (normalize_text (pstrip v)) = some ""
  rw [hblank]
  rfl

/-- Closed instance of C8: `description_clean` is selected for the whole
batch, and the second row gets an empty description even though its
`merchant_raw` is non-empty. -/
theorem description_source_per_batch_witness :
    pick_series exampleFrame DESCRIPTION_SOURCE_COLUMNS "" = ["hello", ""] ∧
    (prepareDescription exampleFrame)[1]? = some "" := by
  have h := description_source_per_batch exampleFrame ["description_clean_norm"]
    ["merchant_raw", "description_raw", "raw_norm", "raw_text"] "description_clean"
    ["hello", " "] 1 " " (by decide) (by decide) (by decide) (by decide) (by decide)
    (by decide)
    ⟨"merchant_raw", by decide, ["", "shop"], "shop", by decide, by decide, by decide⟩
  exact ⟨h.1.trans (by decide), h.2⟩

theorem collectAux_cons (limit : Nat) (acc : List String) (v : String) (vs : List String) :
    collectAux limit acc (v :: vs) =
      if v = "" ∨ acc.contains v then collectAux limit acc vs
      else if (acc ++ [v]).length = limit then acc ++ [v]
      else collectAux limit (acc ++ [v]) vs := rfl

theorem distinctNonEmptyAux_cons (seen : List String) (v : String) (vs : List String) :
    distinctNonEmptyAux seen (v :: vs) =
      if v = "" ∨ seen.contains v then distinctNonEmptyAux seen vs
      else v :: distinctNonEmptyAux (seen ++ [v]) vs := rfl

theorem collectAux_eq (limit : Nat) (vs : List String) :
    ∀ acc, acc.length < limit →
      collectAux limit acc vs = acc ++ (distinctNonEmptyAux acc vs).take (limit - acc.length) := by
  induction vs with
  | nil =>
    intro acc _
    simp [collectAux, distinctNonEmptyAux]
  | cons v vs ih =>
    intro acc hacc
    rw [collectAux_cons, distinctNonEmptyAux_cons]
    by_cases hv : v = "" ∨ acc.contains v
    · rw [if_pos hv, if_pos hv]
      exact ih acc hacc
    · rw [if_neg hv, if_neg hv]
      have hlen : (acc ++ [v]).length = acc.length + 1 := by simp
      by_cases hfull : (acc ++ [v]).length = limit
      · rw [if_pos hfull]
        rw [show limit - acc.length = 1 by omega]
        simp
      · rw [if_neg hfull]
        rw [ih (acc ++ [v]) (by omega)]
        rw [show limit - acc.length = (limit - (acc ++ [v]).length) + 1 by
          rw [hlen]; omega]
        rw [List.take_succ_cons]
        simp [hlen]

theorem collect_examples_eq (series : List String) (n : Nat) (h : 0 < n) :
    collect_examples series n = specExampleSelection series n := by
  unfold collect_examples specExampleSelection
  rw [collectAux_eq n (series.map pstrip) [] (by simpa using h)]
  simp

theorem specExampleSelection_length (l : List String) (n : Nat) :
    (specExampleSelection l n).length = n := by
  unfold specExampleSelection
  have := List.length_take_le n (distinctNonEmptyAux [] (l.map pstrip))
  simp only [List.length_append, List.length_replicate]
  omega

theorem mem_distinctNonEmptyAux {e : String} :
    ∀ {l seen : List String}, e ∈ distinctNonEmptyAux seen l → e ∈ l := by
  intro l
  induction l with
  | nil => intro seen h; cases h
  | cons v vs ih =>
    intro seen h
    rw [distinctNonEmptyAux_cons] at h
    by_cases hv : v = "" ∨ seen.contains v
    · rw [if_pos hv] at h
      exact List.mem_cons_of_mem v (ih h)
    · rw [if_neg hv] at h
      rcases List.mem_cons.mp h with rfl | h'
      · exact List.mem_cons_self e vs
      · exact List.mem_cons_of_mem v (ih h')

theorem length_dropTrailingSpaces_le (l : List Char) :
    (dropTrailingSpaces l).length ≤ l.length := by
  induction l with
  | nil => exact Nat.le_refl 0
  | cons c cs ih =>
    unfold dropTrailingSpaces
    cases hd : dropTrailingSpaces cs with
    | nil =>
      by_cases hs : isSpaceChar c = true
      · rw [if_pos hs]; simp
      · rw [if_neg hs]; simp
    | cons d ds =>
      rw [hd] at ih
      simp only [List.length_cons] at *
      omega

theorem pstrip_length_le (s : String) : (pstrip s).length ≤ s.length := by
  show (stripChars s.data).length ≤ s.data.length
  unfold stripChars dropLeadingSpaces
  calc ((dropTrailingSpaces s.data).dropWhile isSpaceChar).length
      ≤ (dropTrailingSpaces s.data).length := (List.dropWhile_sublist _).length_le
    _ ≤ s.data.length := length_dropTrailingSpaces_le _

theorem bounded_text_length_le (v : Option String) (maxLen : Nat) :
    (bounded_text v maxLen).length ≤ maxLen := by
  unfold bounded_text
  cases v with
  | none => exact Nat.zero_le _
  | some s =>
    show ((stripChars s.data).take maxLen).length ≤ maxLen
    exact List.length_take_le maxLen _

theorem choose_example_text_length_le (a b : Option String) :
    (choose_example_text a b).length ≤ 100 := by
  unfold choose_example_text
  by_cases h1 : bounded_text a 100 ≠ "" ∧ bounded_text b 100 ≠ ""
  · rw [if_pos h1]
    by_cases h2 : asciiLower (bounded_text a 100) = asciiLower (bounded_text b 100)
    · rw [if_pos h2]
      exact bounded_text_length_le a 100
    · rw [if_neg h2]
      by_cases h3 : (bounded_text b 100).length ≤ (bounded_text a 100).length
      · rw [if_pos h3]
        exact bounded_text_length_le a 100
      · rw [if_neg h3]
        exact bounded_text_length_le b 100
  · rw [if_neg h1]
    by_cases h2 : bounded_text a 100 ≠ ""
    · rw [if_pos h2]
      exact bounded_text_length_le a 100
    · rw [if_neg h2]
      exact bounded_text_length_le b 100

/-- **C9.** Candidate-group `example_1` and `example_2` always exist, are
at most 100 characters, and are exactly the first at most two distinct
non-empty example texts in original row order, padded with empty
strings. -/
theorem candidate_group_examples (rows : List (Option String × Option String)) :
    (collect_examples (candidateExamples rows) 2).length = 2 ∧
    (∀ e ∈ collect_examples (candidateExamples rows) 2, e.length ≤ 100) ∧
    collect_examples (candidateExamples rows) 2 =
      specExampleSelection (candidateExamples rows) 2 ∧
    example_1 rows = (specExampleSelection (candidateExamples rows) 2).getD 0 "" ∧
    example_2 rows = (specExampleSelection (candidateExamples rows) 2).getD 1 "" := by
  have heq := collect_examples_eq (candidateExamples rows) 2 (by decide)
  refine ⟨by rw [heq]; exact specExampleSelection_length _ 2, ?_, heq, ?_, ?_⟩
  · intro e he
    rw [heq] at he
    unfold specExampleSelection at he
    rcases List.mem_append.mp he with he' | he'
    · have hmem := mem_distinctNonEmptyAux (List.mem_of_mem_take he')
      rcases List.mem_map.mp hmem with ⟨x, hx, rfl⟩
      rcases List.mem_map.mp hx with ⟨p, _, rfl⟩
      calc (pstrip (choose_example_text p.1 p.2)).length
          ≤ (choose_example_text p.1 p.2).length := pstrip_length_le _
        _ ≤ 100 := choose_example_text_length_le p.1 p.2
    · rw [List.eq_of_mem_replicate he']
      exact Nat.zero_le _
  · unfold example_1
    rw [heq]
  · unfold example_2
    rw [heq]

end YnabIL
